import Mathlib

/-!
# Verification of the JEDI protocol client library (ucbrise/jedi-protocol-go)

A shallow embedding of the Go sources in Lean 4.  Go byte slices are
modelled as `Option (List Nat)`: `none` is a nil slice and `some bs` a
non-nil slice with contents `bs` (each byte `< 256`).  `bytes.Equal`
identifies a nil slice with an empty one, which the model mirrors by
comparing the normalised contents `(·.getD [])`.  Go panics (index out of
range, nil dereference, explicit `panic`) are modelled by `Option`/`none`
results.  Machine integers are `Nat` with explicit `% 2^w` where the Go
code truncates (uint8 positions, uint16 quantities, uint32 lengths).
-/

namespace Jedi

/-- A Go byte slice: `none` is Go `nil`, `some bs` is a non-nil slice. -/
abbrev Slot := Option (List Nat)

/-- The contents a Go byte slice presents to `bytes.Equal`, `len`, and
index operations: a nil slice reads as empty. -/
def slotBytes (s : Slot) : List Nat := s.getD []

/-- Go `len` of a byte slice (`len(nil) = 0`). -/
def slotLen (s : Slot) : Nat := (slotBytes s).length

/-- Go `bytes.Equal`: content equality, identifying nil with empty. -/
def bytesEqual (a b : Slot) : Bool := slotBytes a = slotBytes b

/-- `Pattern` from `pattern.go`: a list of byte-slice slots; a `nil`
slot is free, a non-nil slot is bound. -/
abbrev Pattern := List Slot

/-- `Pattern.Equals` from `pattern.go`: `false` if the lengths differ,
otherwise slot-wise `bytes.Equal`. -/
def Pattern.Equals (p q : Pattern) : Bool :=
  if p.length ≠ q.length then false
  else (List.zip p q).all fun c => bytesEqual c.1 c.2

/-- `Pattern.Matches` from `pattern.go`: panics (modelled `none`) when the
lengths differ; otherwise every slot of `p` with `len(comp) != 0` must be
`bytes.Equal` to the corresponding slot of `q`. -/
def Pattern.Matches (p q : Pattern) : Option Bool :=
  if p.length ≠ q.length then none
  else some ((List.zip p q).all fun c => slotLen c.1 = 0 || bytesEqual c.1 c.2)

/-- `cryptutils.HashToZp` from the external pairing library, a black box:
modelled as an injective function of the hashed bytes. -/
def HashToZp (bs : List Nat) : List Nat := bs

/-- `wkdibe.AttributeList` (a Go map from attribute index to `*big.Int`):
modelled as an association list in ascending index order, which is the
canonical form every constructor in this file produces.  A `none` value is
a nil `*big.Int` (a Go map read of a missing key). -/
abbrev AttributeList := List (Nat × Option (List Nat))

/-- Go map read `attrs[idx]`: the stored value, or nil when absent. -/
def attrLookup (attrs : AttributeList) (idx : Nat) : Option (List Nat) :=
  match attrs.find? fun e => e.1 = idx with
  | some e => e.2
  | none => none

/-- The loop of `Pattern.ToAttrs`, with `i` the index of the head slot. -/
def toAttrsLoop (i : Nat) : List Slot → AttributeList
  | [] => []
  | s :: rest =>
    if slotLen s ≠ 0 then (i, some (HashToZp (slotBytes s))) :: toAttrsLoop (i + 1) rest
    else toAttrsLoop (i + 1) rest

/-- `Pattern.ToAttrs` from `pattern.go`: hash every slot with
`len(comp) != 0` into an attribute at that slot's index. -/
def Pattern.ToAttrs (p : Pattern) : AttributeList := toAttrsLoop 0 p

/-- The loop of `Pattern.ToAttrsWithReference`.  `i` is the absolute index
of the head of `ps`; `qs` is the remainder of the reference pattern from
the same index, so running out of `qs` before `ps` is Go's out-of-range
panic on `q[i]`. -/
def tawrLoop (qAttrs : AttributeList) : Nat → List Slot → List Slot →
    Option (AttributeList × Bool)
  | _, [], _ => some ([], true)
  | _, _ :: _, [] => none
  | i, s :: ps, qi :: qs =>
    match tawrLoop qAttrs (i + 1) ps qs with
    | none => none
    | some (attrs, eq) =>
      if slotLen s ≠ 0 then
        if bytesEqual s qi then some ((i, attrLookup qAttrs i) :: attrs, eq)
        else some ((i, some (HashToZp (slotBytes s))) :: attrs, false)
      else
        if slotLen qi ≠ 0 then some (attrs, false) else some (attrs, eq)

/-- `Pattern.ToAttrsWithReference` from `pattern.go`: like `ToAttrs` but
reuses `qAttrs[i]` whenever `p`'s slot is bound and byte-equal to `q`'s,
and additionally reports whether the two patterns were found equal. -/
def Pattern.ToAttrsWithReference (p q : Pattern) (qAttrs : AttributeList) :
    Option (AttributeList × Bool) :=
  tawrLoop qAttrs 0 p q

/-! ## URI paths (`uri.go`) -/

/-- A URI path: a list of URI components, each a byte slice whose first
byte is its position and whose remaining bytes are its name; a nil
component is a `+` wildcard. -/
abbrev URIPath := List Slot

/-- Byte values of the characters the Go code treats specially. -/
def dollarByte : Nat := 36

/-- Byte value of `*`. -/
def starByte : Nat := 42

/-- Byte value of `+`. -/
def plusByte : Nat := 43

/-- Byte value of `/`. -/
def slashByte : Nat := 47

/-- Go `strings.Split(s, "/")`: the (possibly empty) chunks between
separators, with a chunk before the first and after the last separator. -/
def splitSlash : List Nat → List (List Nat)
  | [] => [[]]
  | c :: rest =>
    match splitSlash rest with
    | [] => [[]]
    | g :: gs => if c = slashByte then [] :: g :: gs else (c :: g) :: gs

/-- `NewURIComponent` from `uri.go`: position byte (a uint8, hence
`% 256`) followed by the name bytes. -/
def NewURIComponent (name : List Nat) (position : Nat) : Slot :=
  some (position % 256 :: name)

/-- `ValidateURIComponent` from `uri.go`: a component is invalid iff it
is empty or is exactly `"$"`. -/
def ValidateURIComponent (uri : List Nat) : Bool :=
  ¬(uri = [] ∨ uri = [dollarByte])

/-- The loop of `ParseURIFromPath`.  `total` is the length of the full
segment list and `i` the index of the head segment; the returned flag
records whether a trailing `*` made the URI a prefix. -/
def parseSegsLoop (total : Nat) : Nat → List (List Nat) →
    Except Unit (Bool × List Slot)
  | _, [] => .ok (false, [])
  | i, s :: rest =>
    if ValidateURIComponent s = false then .error ()
    else if s = [starByte] then
      if i = total - 1 then
        match parseSegsLoop total (i + 1) rest with
        | .error () => .error ()
        | .ok (_, comps) => .ok (true, comps)
      else .error ()
    else if s = [plusByte] then
      match parseSegsLoop total (i + 1) rest with
      | .error () => .error ()
      | .ok (pfx, comps) => .ok (pfx, none :: comps)
    else
      match parseSegsLoop total (i + 1) rest with
      | .error () => .error ()
      | .ok (pfx, comps) => .ok (pfx, NewURIComponent s i :: comps)

/-- `ParseURIFromPath` from `uri.go`: validate and convert each segment,
then append the `$` terminator unless the URI is a prefix. -/
def ParseURIFromPath (uriPath : List (List Nat)) : Except Unit URIPath :=
  match parseSegsLoop uriPath.length 0 uriPath with
  | .error () => .error ()
  | .ok (pfx, comps) =>
    .ok (comps ++ if pfx then [] else [NewURIComponent [dollarByte] uriPath.length])

/-- The nonempty `/`-separated segments of a URI string. -/
def uriSegments (uri : List Nat) : List (List Nat) :=
  (splitSlash uri).filter fun c => c ≠ []

/-- `ParseURI` from `uri.go`: split on `/`, drop empty segments, parse. -/
def ParseURI (uri : List Nat) : Except Unit URIPath :=
  ParseURIFromPath (uriSegments uri)

/-- `EncodeURIPathInto` from `uri.go`: write the components into the
first slots of a buffer of length `n` and nil the rest; panics (`none`)
when the buffer is too short. -/
def EncodeURIPathInto (up : URIPath) (n : Nat) : Option Pattern :=
  if n < up.length then none
  else some (up ++ List.replicate (n - up.length) none)

/-- Drop trailing `none` slots. -/
def trimTrailingNone (l : List Slot) : List Slot :=
  (l.reverse.dropWhile fun s => s = none).reverse

/-- `DecodeURIPathFrom` from `uri.go`: scan backwards past nil slots,
then return the remaining prefix as components. -/
def DecodeURIPathFrom («from» : Pattern) : URIPath :=
  trimTrailingNone «from»

/-! ## Time paths (`expiry.go`) -/

/-- `MaxTimeLength` from `expiry.go`. -/
def MaxTimeLength : Nat := 6

/-- A time path: a list of time components, each a byte slice
`[position, lo, hi]` holding a uint16 quantity in little-endian order. -/
abbrev TimePath := List Slot

/-- `NewTimeComponent` from `expiry.go`: position byte then the quantity
in 16-bit little-endian form. -/
def NewTimeComponent (quantity : Nat) (position : Nat) : Slot :=
  some [position % 256, quantity % 256, quantity / 256 % 256]

/-- `TimeComponent.Quantity` from `expiry.go`:
`binary.LittleEndian.Uint16(tc[1:3])`, panicking (`none`) when the
component has fewer than three bytes. -/
def Quantity (tc : Slot) : Option Nat :=
  match slotBytes tc with
  | _ :: b1 :: b2 :: _ => some (b1 + 256 * b2)
  | _ => none

/-- The constants of `expiry.go` bounding each time component. -/
def MinYear : Nat := 2015

/-- Largest supported year. -/
def MaxYear : Nat := 2050

/-- Largest day of a long month. -/
def MaxDay : Nat := 31

/-- Largest day of a 30-day month. -/
def MaxDayShortMonth : Nat := 30

/-- Largest day of February outside leap years. -/
def MaxDayFebruary : Nat := 28

/-- Largest day of February in a leap year. -/
def MaxDayFebruaryLeapYear : Nat := 29

/-- The quantity at a given index of a time-path prefix, panicking
(`none`) when the index is out of range or the component malformed. -/
def quantityAt (pfx : TimePath) (i : Nat) : Option Nat :=
  match pfx.get? i with
  | none => none
  | some c => Quantity c

/-- `TimeComponentBounds` from `expiry.go`: the inclusive bounds of the
component at `position` given the components of `pfx` before it.  All
arithmetic is Go uint16 arithmetic, hence the `% 65536`. -/
def TimeComponentBounds (pfx : TimePath) (position : Nat) : Option (Nat × Nat) :=
  match position with
  | 0 => some (MinYear, MaxYear)
  | 1 => some (1, 12)
  | 2 => some (1, 6)
  | 3 =>
    match quantityAt pfx 2 with
    | none => none
    | some fivedays =>
      if fivedays = 6 then
        match quantityAt pfx 1 with
        | none => none
        | some month =>
          if month = 1 ∨ month = 3 ∨ month = 5 ∨ month = 7 ∨ month = 8 ∨
              month = 10 ∨ month = 12 then some (26, MaxDay)
          else if month = 4 ∨ month = 6 ∨ month = 9 ∨ month = 11 then
            some (26, MaxDayShortMonth)
          else if month = 2 then
            match quantityAt pfx 0 with
            | none => none
            | some year =>
              if year % 4 = 0 ∧ (year % 100 ≠ 0 ∨ year % 400 = 0) then
                some (26, MaxDayFebruaryLeapYear)
              else some (26, MaxDayFebruary)
          else some ((5 * ((fivedays + 65535) % 65536) + 1) % 65536, 5 * fivedays % 65536)
      else some ((5 * ((fivedays + 65535) % 65536) + 1) % 65536, 5 * fivedays % 65536)
  | 4 => some (1, 4)
  | 5 =>
    match quantityAt pfx 4 with
    | none => none
    | some sixhours =>
      some (6 * ((sixhours + 65535) % 65536) % 65536, (6 * sixhours + 65535) % 65536)
  | _ => none

/-- `EncodeTimePathInto` from `expiry.go`: overwrite the first slots of
the buffer with the components, leaving the rest of the buffer intact;
panics (`none`) when the buffer is too short. -/
def EncodeTimePathInto (tp : TimePath) (into : Pattern) : Option Pattern :=
  if into.length < tp.length then none
  else some (tp ++ into.drop tp.length)

/-- `DecodeTimePathFrom` from `expiry.go`: scan backwards past nil slots,
then return the remaining prefix as components. -/
def DecodeTimePathFrom («from» : Pattern) : TimePath :=
  trimTrailingNone «from»

/-- The copy loop of `TimeToBytes`: `copy(buf[start:start+3], component)`
then `start += 3`, panicking (`none`) when the slice bound exceeds the
buffer. -/
def timeToBytesLoop : TimePath → List Nat → Nat → Option (List Nat)
  | [], buf, _ => some buf
  | c :: rest, buf, start =>
    if start + 3 > buf.length then none
    else
      let src := (slotBytes c).take 3
      timeToBytesLoop rest
        (buf.take start ++ src ++ buf.drop (start + src.length)) (start + 3)

/-- `TimeToBytes` from `expiry.go`: allocates `1 + bytelen` zero bytes
where `bytelen = 2 * (total component length) + 1` (or `0` for an empty
path), writes the component count and then each component at 3-byte
strides. -/
def TimeToBytes (tp : TimePath) : Option (List Nat) :=
  let length := (tp.map slotLen).sum
  let bytelen := if length = 0 then 0 else 2 * length + 1
  let buf := List.replicate (1 + bytelen) 0
  timeToBytesLoop tp (tp.length % 256 :: buf.tail) 1

/-! ## Marshalling (`marshal.go`) -/

/-- `MarshalledTypePattern` from `marshal.go`. -/
def MarshalledTypePattern : Nat := 1

/-- `putLength` from `marshal.go`: a length as four little-endian bytes
of its uint32 truncation. -/
def putLength (n : Nat) : List Nat :=
  [n % 256, n / 256 % 256, n / 65536 % 256, n / 16777216 % 256]

/-- `getLength` from `marshal.go`: read four little-endian bytes,
panicking (`none`) when fewer than four remain. -/
def getLength : List Nat → Option (Nat × List Nat)
  | b0 :: b1 :: b2 :: b3 :: rest =>
    some (b0 + 256 * b1 + 65536 * b2 + 16777216 * b3, rest)
  | _ => none

/-- The index one past the last slot of `p` with `len != 0` (the `last`
computed by `Pattern.Marshal`). -/
def lastNonempty : Pattern → Nat
  | [] => 0
  | s :: rest =>
    let k := lastNonempty rest
    if k = 0 then (if slotLen s = 0 then 0 else 1) else k + 1

/-- The body of a marshalled pattern: for each slot with `len != 0` among
the first slots, its index, its length, and its bytes, each length a
uint32. -/
def marshalBody : List Slot → Nat → List Nat
  | [], _ => []
  | s :: rest, i =>
    (if slotLen s = 0 then []
     else putLength i ++ putLength (slotLen s) ++ slotBytes s) ++
    marshalBody rest (i + 1)

/-- `Pattern.Marshal` from `marshal.go`: type byte, pattern length,
index one past the last nonempty slot, then the nonempty slots among
those indices. -/
def Pattern.Marshal (p : Pattern) : List Nat :=
  MarshalledTypePattern :: (putLength p.length ++ putLength (lastNonempty p) ++
    marshalBody (p.take (lastNonempty p)) 0)

/-- Write a slot at an index of a pattern, panicking (`none`) when the
index is out of range (Go `pattern[i] = ...`). -/
def setSlot (p : Pattern) (i : Nat) (v : Slot) : Option Pattern :=
  if i < p.length then some (p.set i v) else none

/-- The read loop of `Pattern.Unmarshal`: starting from `i = -1`, read an
index and a length-prefixed component and store it until the index
reaches `last`; a zero length stores a nil slot.  Runs of the loop that
exhaust the buffer are Go panics (`none`). -/
def unmarshalLoop (last : Int) (i : Int) (p : Pattern) (buf : List Nat) :
    Option Pattern :=
  if i = last then some p
  else
    match buf with
    | a0 :: a1 :: a2 :: a3 :: b0 :: b1 :: b2 :: b3 :: rest =>
      let i' := a0 + 256 * a1 + 65536 * a2 + 16777216 * a3
      let len := b0 + 256 * b1 + 65536 * b2 + 16777216 * b3
      if len = 0 then
        match setSlot p i' none with
        | none => none
        | some p' => unmarshalLoop last i' p' rest
      else if rest.length < len then none
      else
        match setSlot p i' (some (rest.take len)) with
        | none => none
        | some p' => unmarshalLoop last i' p' (rest.drop len)
    | _ => none
termination_by buf.length
decreasing_by
  · simp only [List.length_cons]
    omega
  · simp only [List.length_cons, List.length_drop]
    omega

/-- `Pattern.Unmarshal` from `marshal.go`: check the type byte, read the
pattern length and the one-past-last index, then run the component
loop.  Any Go panic along the way is `none`; a recoverable `false`
return is also `none`. -/
def Pattern.Unmarshal (marshalled : List Nat) : Option Pattern :=
  match marshalled with
  | [] => none
  | t :: buf =>
    if t ≠ MarshalledTypePattern then none
    else
      match getLength buf with
      | none => none
      | some (patternLength, buf1) =>
        match getLength buf1 with
        | none => none
        | some (last, buf2) =>
          unmarshalLoop ((last : Int) - 1) (-1)
            (List.replicate patternLength none) buf2

/-- The slot-wise normalisation `Unmarshal ∘ Marshal` performs: a slot
with `len != 0` keeps its contents as a non-nil slice, all other slots
become nil. -/
def normalizeSlots (p : Pattern) : Pattern :=
  p.map fun s => if slotLen s = 0 then none else some (slotBytes s)

/-! ## The encryption fast path (`state.go`, `encrypt.go`)

The WKD-IBE primitives (`wkdibe.*`, `cryptutils.*`) are external black
boxes; they are modelled as injective constructions over opaque records
so that only the equalities the client code depends on are visible. -/

/-- `wkdibe.PreparedAttributeList`, a black box: the precomputation for
an attribute list.  `PrepareAttributeList` and
`AdjustPreparedAttributeList` both leave it describing the attribute
list last supplied, which is the only property `encrypt.go` relies on. -/
structure PreparedAttrs where
  /-- The attribute list the precomputation currently describes. -/
  attrs : AttributeList
deriving DecidableEq, Repr

/-- `wkdibe.PrepareAttributeList(params, attrs)`. -/
def PrepareAttributeList (attrs : AttributeList) : PreparedAttrs := ⟨attrs⟩

/-- `wkdibe.AdjustPreparedAttributeList(prep, params, old, new)`: after
the call the precomputation describes `new`. -/
def AdjustPreparedAttributeList (_prep : PreparedAttrs) (_old new : AttributeList) :
    PreparedAttrs := ⟨new⟩

/-- `wkdibe.Ciphertext`, a black box: the WKD-IBE encapsulation of a
symmetric key, determined by the random group element and the prepared
attribute list used to produce it.  Its marshalled bytes are abstracted
by the record itself. -/
structure WkdCiphertext where
  /-- The random group element that was encrypted. -/
  groupElt : Nat
  /-- The precomputation the encapsulation was produced with. -/
  prep : PreparedAttrs
deriving DecidableEq, Repr

/-- `wkdibe.EncryptPrepared(encryptable, params, prep)`. -/
def EncryptPrepared (groupElt : Nat) (prep : PreparedAttrs) : WkdCiphertext :=
  ⟨groupElt, prep⟩

/-- The randomness one call of `cryptutils.GenerateKey` consumes: the
sampled 16-byte symmetric key and the group element that hashes to it. -/
structure KeyRand where
  /-- The 16 bytes written into `entry.key`. -/
  key : List Nat
  /-- The returned encryptable group element. -/
  groupElt : Nat
deriving DecidableEq, Repr

/-- `encryptionCacheEntry` from `state.go`: the per-URI mutable record.
`pattern = none` is the Go nil pattern of an uninitialised entry, and the
two pointer fields are `Option` because they are nil until first use. -/
structure EncryptionCacheEntry where
  /-- The `pattern` field; `none` is Go nil (uninitialised). -/
  pattern : Option Pattern
  /-- The `attrs` field. -/
  attrs : AttributeList
  /-- The `key` field: the cached 16-byte symmetric key. -/
  key : List Nat
  /-- The `encryptedKey` field; `none` is a nil pointer. -/
  encryptedKey : Option WkdCiphertext
  /-- The `precomputed` field; `none` is a nil pointer. -/
  precomputed : Option PreparedAttrs
deriving DecidableEq, Repr

/-- A fresh `encryptionCacheEntry` as allocated by the cache loader. -/
def EncryptionCacheEntry.empty : EncryptionCacheEntry :=
  ⟨none, [], [], none, none⟩

/-- The part of `EncryptWithPattern`'s output the cache determines: the
first `EncryptedKeySize` bytes (the marshalled encapsulation, abstracted
as the `WkdCiphertext` itself) and the symmetric key used for the CTR
body. -/
structure EncryptOutput where
  /-- The marshalled `entry.encryptedKey` copied into the output head. -/
  encryptedKey : WkdCiphertext
  /-- The symmetric key copied out of the entry. -/
  key : List Nat
deriving DecidableEq, Repr

/-- One sequential execution of the cache section of
`ClientState.EncryptWithPattern` (`encrypt.go`): given the entry for the
URI, the pattern, and the randomness a key generation would consume,
produce the updated entry, the output, and the number of
`wkdibe.EncryptPrepared` invocations.  Dereferencing a nil
`encryptedKey` or `precomputed`, or indexing past the cached pattern in
`ToAttrsWithReference`, is a Go panic (`none`). -/
def EncryptWithPattern (entry : EncryptionCacheEntry) (pattern : Pattern)
    (rand : KeyRand) : Option (EncryptionCacheEntry × EncryptOutput × Nat) :=
  let identical := Pattern.Equals pattern (entry.pattern.getD [])
  if identical then
    match entry.encryptedKey with
    | none => none
    | some c => some (entry, ⟨c, entry.key⟩, 0)
  else
    match entry.pattern with
    | none =>
      let attrs := Pattern.ToAttrs pattern
      let prep := PrepareAttributeList attrs
      let c := EncryptPrepared rand.groupElt prep
      some (⟨some pattern, attrs, rand.key, some c, some prep⟩, ⟨c, rand.key⟩, 1)
    | some cached =>
      match Pattern.ToAttrsWithReference pattern cached entry.attrs with
      | none => none
      | some (attrs, identical2) =>
        if identical2 then
          match entry.encryptedKey with
          | none => none
          | some c => some (entry, ⟨c, entry.key⟩, 0)
        else
          match entry.precomputed with
          | none => none
          | some prep0 =>
            let prep := AdjustPreparedAttributeList prep0 entry.attrs attrs
            let c := EncryptPrepared rand.groupElt prep
            some (⟨some pattern, attrs, rand.key, some c, some prep⟩, ⟨c, rand.key⟩, 1)

/-! ## The covering time-range decomposition

The repository's tests (`TestTimeRange` and friends) exercise a
`TimeRange` function whose source file is not under `src/`; it is
modelled below from the specification (§4.2, §8).  The model works on
time paths as lists of quantities (one per hierarchy level) and uses the
source-faithful `TimeComponentBounds` for the per-level bounds. -/

/-- Encode a list of level quantities as a `TimePath` of byte
components, so that the source's `TimeComponentBounds` can be applied
to it. -/
def encodeQuantities (qs : List Nat) : TimePath :=
  (List.range qs.length).zipWith (fun i q => NewTimeComponent q i) qs

/-- Modelled from the spec: the bounds of the next level below a
quantity-level time prefix (`timeComponentBounds(prefix, position)` of
§4.2, with `position` the prefix's length). -/
def childBounds (pfx : List Nat) : Nat × Nat :=
  (TimeComponentBounds (encodeQuantities pfx) pfx.length).getD (0, 0)

/-- Whether each component of a quantity-level time path lies within the
bounds determined by the components before it (`acc` is the already
validated prefix). -/
def validFrom (acc : List Nat) : List Nat → Bool
  | [] => true
  | q :: rest =>
    (childBounds acc).1 ≤ q && q ≤ (childBounds acc).2 && validFrom (acc ++ [q]) rest

/-- A valid quantity-level time path prefix. -/
def validPath (p : List Nat) : Bool := validFrom [] p

/-- A valid hour-granularity instant: a full six-level path. -/
def validHour (p : List Nat) : Bool := validPath p && p.length = 6

/-- Extend a prefix `d` more levels, always choosing the smallest
quantity: the earliest hour the prefix covers. -/
def extendLo : Nat → List Nat → List Nat
  | 0, p => p
  | d + 1, p => extendLo d (p ++ [(childBounds p).1])

/-- Extend a prefix `d` more levels, always choosing the largest
quantity: the latest hour the prefix covers. -/
def extendHi : Nat → List Nat → List Nat
  | 0, p => p
  | d + 1, p => extendHi d (p ++ [(childBounds p).2])

/-- The earliest hour covered by a time-path prefix. -/
def nodeLo (p : List Nat) : List Nat := extendLo (6 - p.length) p

/-- The latest hour covered by a time-path prefix. -/
def nodeHi (p : List Nat) : List Nat := extendHi (6 - p.length) p

/-- Lexicographic order on quantity lists; on equal-length full paths
this is chronological order of the hours they denote. -/
def lexLe : List Nat → List Nat → Bool
  | [], _ => true
  | _ :: _, [] => false
  | a :: as, b :: bs => a < b || (a = b && lexLe as bs)

/-- Whether the hours covered by prefix `p` intersect the closed hour
interval `[s, e]`. -/
def overlaps (p s e : List Nat) : Bool :=
  lexLe (nodeLo p) e && lexLe s (nodeHi p)

/-- Whether every hour covered by prefix `p` lies inside `[s, e]`. -/
def insideRange (p s e : List Nat) : Bool :=
  lexLe s (nodeLo p) && lexLe (nodeHi p) e

/-- Modelled from the spec: the recursive core of the missing
`TimeRange` (§4.2).  A node entirely inside the interval is emitted as a
single (coarsest) path; otherwise the children that meet the interval
are visited in ascending order, descending `d` more levels.  Only nodes
that meet the interval are ever visited. -/
def coverNode (d : Nat) (pfx s e : List Nat) : List (List Nat) :=
  match d with
  | 0 => [pfx]
  | d + 1 =>
    if insideRange pfx s e then [pfx]
    else
      let b := childBounds pfx
      ((List.range' b.1 (b.2 + 1 - b.1)).filter fun q => overlaps (pfx ++ [q]) s e).flatMap
        fun q => coverNode d (pfx ++ [q]) s e

/-- Modelled from the spec: `TimeRange` (§4.2), whose implementation
file is absent from `src/` (only its tests are present).  `s` and `e`
are the hour-granularity time paths of the two timestamps.  The years
meeting the interval are visited in ascending order and decomposed into
the coarsest prefixes that fit inside `[s, e]`. -/
def TimeRange (s e : List Nat) : List (List Nat) :=
  ((List.range' MinYear (MaxYear + 1 - MinYear)).filter fun y =>
    overlaps [y] s e).flatMap fun y => coverNode 5 [y] s e

/-- The natural end of month `m` of year `y` as the specification states
it: 31 for the long months, 30 for the short ones, and for February 29
exactly in leap years. -/
def monthEnd (y m : Nat) : Nat :=
  if m = 2 then (if y % 4 = 0 ∧ (y % 100 ≠ 0 ∨ y % 400 = 0) then 29 else 28)
  else if m = 4 ∨ m = 6 ∨ m = 9 ∨ m = 11 then 30
  else 31

/-- The URI components `ParseURIFromPath` builds from a segment list, in
order: a `+` segment becomes a free slot, a `*` segment is skipped, and
any other segment becomes a bound component at its index. -/
def buildComps (i : Nat) : List (List Nat) → List Slot
  | [] => []
  | s :: rest =>
    if s = [starByte] then buildComps (i + 1) rest
    else (if s = [plusByte] then none else NewURIComponent s i) :: buildComps (i + 1) rest

/-- The marshalled-pattern body as the specification's wire format
states it: each bound slot among the first `lastNonempty` indices as
`<index><length><bytes>`. -/
def entriesOfLoop : List Slot → Nat → List (Nat × List Nat)
  | [], _ => []
  | s :: rest, i =>
    (if slotLen s = 0 then [] else [(i, slotBytes s)]) ++ entriesOfLoop rest (i + 1)

/-- Flatten index/bytes entries to wire bytes, lengths as uint32. -/
def flattenEntries (entries : List (Nat × List Nat)) : List Nat :=
  entries.flatMap fun entry => putLength entry.1 ++ putLength entry.2.length ++ entry.2

/-- Apply index/bytes entries to a pattern, each entry setting its slot
(the effect of the `Unmarshal` component loop). -/
def applyEntries (E : List (Nat × List Nat)) (p : Pattern) : Pattern :=
  E.foldl (fun q e => q.set e.1 (some e.2)) p

/-- The index of the last entry, as the `Unmarshal` loop's stopping
value; `i` when there are no entries. -/
def lastIdxInt (i : Int) (E : List (Nat × List Nat)) : Int :=
  match E.getLast? with
  | some e => (e.1 : Int)
  | none => i

/-- Whether hour-instant `q` lies under time-path prefix `p`. -/
def hourIn (p q : List Nat) : Bool :=
  validHour q && decide (q.take p.length = p)

/-- Whether some path of `out` covers the hour-instant `q`. -/
def hourCovered (out : List (List Nat)) (q : List Nat) : Bool :=
  out.any fun p => hourIn p q

/-! ## Pointwise characterisations of the slot-wise pattern operations -/

theorem zip_all_iff (f : Slot → Slot → Bool) :
    ∀ (P Q : List Slot),
      ((List.zip P Q).all fun c => f c.1 c.2) = true ↔
        ∀ i, i < min P.length Q.length → f (P.getD i none) (Q.getD i none) = true := by
  intro P
  induction P with
  | nil => intro Q; simp
  | cons p ps ih =>
    intro Q
    cases Q with
    | nil => simp
    | cons q qs =>
      simp only [List.zip_cons_cons, List.all_cons, Bool.and_eq_true, ih qs,
        List.length_cons]
      constructor
      · rintro ⟨h0, h⟩ i hi
        cases i with
        | zero => simpa using h0
        | succ j =>
          simp only [List.getD_cons_succ]
          exact h j (by omega)
      · intro h
        refine ⟨by simpa using h 0 (by omega), fun j hj => ?_⟩
        have := h (j + 1) (by omega)
        simpa using this

theorem Matches_eq_some (P Q : Pattern) (h : P.length = Q.length) :
    Pattern.Matches P Q =
      some ((List.zip P Q).all fun c => slotLen c.1 = 0 || bytesEqual c.1 c.2) := by
  simp [Pattern.Matches, h]

theorem Equals_eq (P Q : Pattern) (h : P.length = Q.length) :
    Pattern.Equals P Q = ((List.zip P Q).all fun c => bytesEqual c.1 c.2) := by
  simp [Pattern.Equals, h]

/-- **C2.**  The claim states that for same-length patterns
`P.Matches(Q)` is true iff every slot of `P` is free (nil) or byte-equal
to `Q`'s, and that `Matches` panics on a length mismatch.  The code uses
`len(comp) != 0`, so a zero-length bound slot also matches anything;
this theorem is the claim amended to say "free or zero-length".  The
length-mismatch panic is the `none` result of the embedding. -/
theorem c2_matches_characterisation (P Q : Pattern) :
    (P.length = Q.length →
      (Pattern.Matches P Q = some true ↔
        ∀ i, i < P.length →
          slotLen (P.getD i none) = 0 ∨
            slotBytes (P.getD i none) = slotBytes (Q.getD i none)))
    ∧ (P.length ≠ Q.length → Pattern.Matches P Q = none) := by
  constructor
  · intro h
    rw [Matches_eq_some P Q h, Option.some_inj,
      zip_all_iff (fun a b => slotLen a = 0 || bytesEqual a b) P Q]
    constructor
    · intro hall i hi
      have := hall i (by omega)
      simp only [Bool.or_eq_true, decide_eq_true_eq, bytesEqual] at this
      simpa [bytesEqual] using this
    · intro hall i hi
      have := hall i (by omega)
      simp only [Bool.or_eq_true, decide_eq_true_eq, bytesEqual]
      simpa [bytesEqual] using this
  · intro h
    simp [Pattern.Matches, h]

/-- **C2 counterexample.**  At `P = [some []]`, `Q = [some [1]]` the code
returns `true` although `P`'s only slot is bound (non-nil) and not
byte-equal to `Q`'s, refuting the claim as stated. -/
theorem c2_counterexample :
    Pattern.Matches [some []] [some [1]] = some true ∧
      ¬(∀ i, i < 1 →
        ([some ([] : List Nat)] : Pattern).getD i none = none ∨
          slotBytes (([some ([] : List Nat)] : Pattern).getD i none) =
            slotBytes (([some [1]] : Pattern).getD i none)) := by
  constructor
  · rfl
  · intro h
    rcases h 0 (by omega) with h0 | h0 <;> simp [slotBytes] at h0

/-- **C2 witness.** -/
theorem c2_witness :
    ((([some [5]], [some [5], none]) : Pattern × Pattern).1.length ≠
        ([some [5], none] : Pattern).length) ∧
      Pattern.Matches [some [5]] [some [5], none] = none :=
  ⟨by decide, (c2_matches_characterisation [some [5]] [some [5], none]).2 (by decide)⟩

/-- **C10.**  `Pattern.Equals` and `Pattern.Matches` do not distinguish
a free (nil) slot from a zero-length bound slot: same-length patterns
whose slots are pairwise equal up to that identification are `Equals`
and match each other in both directions. -/
theorem c10_nil_empty_identified (P Q : Pattern) (hlen : P.length = Q.length)
    (h : ∀ i, i < P.length →
      P.getD i none = Q.getD i none ∨
        (P.getD i none = none ∧ Q.getD i none = some []) ∨
        (P.getD i none = some [] ∧ Q.getD i none = none)) :
    Pattern.Equals P Q = true ∧ Pattern.Matches P Q = some true ∧
      Pattern.Matches Q P = some true := by
  have hbytes : ∀ i, i < P.length →
      slotBytes (P.getD i none) = slotBytes (Q.getD i none) := by
    intro i hi
    rcases h i hi with h0 | ⟨h1, h2⟩ | ⟨h1, h2⟩
    · rw [h0]
    · rw [h1, h2]; rfl
    · rw [h1, h2]; rfl
  refine ⟨?_, ?_, ?_⟩
  · rw [Equals_eq P Q hlen, zip_all_iff (fun a b => bytesEqual a b)]
    intro i hi
    simp only [bytesEqual, decide_eq_true_eq]
    exact hbytes i (by omega)
  · rw [Matches_eq_some P Q hlen, Option.some_inj,
      zip_all_iff (fun a b => slotLen a = 0 || bytesEqual a b)]
    intro i hi
    simp only [Bool.or_eq_true, decide_eq_true_eq, bytesEqual]
    exact Or.inr (hbytes i (by omega))
  · rw [Matches_eq_some Q P hlen.symm, Option.some_inj,
      zip_all_iff (fun a b => slotLen a = 0 || bytesEqual a b)]
    intro i hi
    simp only [Bool.or_eq_true, decide_eq_true_eq, bytesEqual]
    exact Or.inr (hbytes i (by omega)).symm

/-- **C10 witness.** -/
theorem c10_witness :
    (([some [7], none, some []] : Pattern).length =
        ([some [7], some [], none] : Pattern).length) ∧
      Pattern.Equals [some [7], none, some []] [some [7], some [], none] = true ∧
      Pattern.Matches [some [7], none, some []] [some [7], some [], none] = some true ∧
      Pattern.Matches [some [7], some [], none] [some [7], none, some []] = some true := by
  refine ⟨by decide, ?_⟩
  have := c10_nil_empty_identified [some [7], none, some []] [some [7], some [], none]
    (by decide) (by decide)
  exact ⟨this.1, this.2.1, this.2.2⟩

/-! ## Time marshalling (C9) and path encode/decode round-trips (C8) -/

/-- **C9.**  The claim (and the specification's wire format) say the
output of `TimeToBytes` is the count byte followed by exactly `3·n`
component bytes, total length `1 + 3·n`.  The code allocates
`1 + (2·(3·n) + 1)` bytes and leaves the excess as zero padding: on the
single-component path `[2019]` it produces 8 bytes, not 4. -/
theorem c9_timeToBytes_padded :
    TimeToBytes [NewTimeComponent 2019 0] = some [1, 0, 227, 7, 0, 0, 0, 0] ∧
      (TimeToBytes [NewTimeComponent 2019 0]).map List.length = some 8 ∧
      (8 : Nat) ≠ 1 + 3 * 1 := by
  refine ⟨by decide, by decide, by decide⟩

theorem dropWhile_replicate_none (l : List Slot) (k : Nat) :
    (List.replicate k (none : Slot) ++ l).dropWhile (fun s => s = none) =
      l.dropWhile (fun s => s = none) := by
  induction k with
  | zero => rfl
  | succ n ih =>
    rw [List.replicate_succ, List.cons_append,
      List.dropWhile_cons_of_pos (by simp)]
    exact ih

theorem trimTrailingNone_append_replicate (l : List Slot) (k : Nat) :
    trimTrailingNone (l ++ List.replicate k none) = trimTrailingNone l := by
  simp [trimTrailingNone, List.reverse_append, List.reverse_replicate,
    dropWhile_replicate_none]

/-- **C8.**  The claim states the exact round-trips
`DecodeURIPathFrom ∘ EncodeURIPathInto = id` and
`DecodeTimePathFrom ∘ EncodeTimePathInto = id`.  Both decoders trim
trailing nil slots, so a path ending in a free (nil) component — such as
`ParseURI("a/+/*")` produces — does not round-trip; the amended claim is
that the round-trip returns the path with its trailing nil components
removed (and hence the path itself whenever it ends in a non-nil
component). -/
theorem c8_roundtrip_trims :
    (∀ (up : URIPath) (n : Nat), up.length ≤ n →
      (EncodeURIPathInto up n).map DecodeURIPathFrom = some (trimTrailingNone up)) ∧
    (∀ tp : TimePath, tp.length ≤ 6 →
      (EncodeTimePathInto tp (List.replicate 6 none)).map DecodeTimePathFrom =
        some (trimTrailingNone tp)) := by
  constructor
  · intro up n h
    have hn : ¬n < up.length := by omega
    simp only [EncodeURIPathInto, hn, if_false, Option.map_some',
      DecodeURIPathFrom, trimTrailingNone_append_replicate]
  · intro tp h
    have hn : ¬(List.replicate 6 (none : Slot)).length < tp.length := by
      simp only [List.length_replicate]; omega
    simp only [EncodeTimePathInto, hn, if_false, Option.map_some',
      DecodeTimePathFrom, List.drop_replicate,
      trimTrailingNone_append_replicate]

/-- **C8 counterexample.**  The URI path of `"a/+/*"` ends in a free
slot; the round-trip drops it. -/
theorem c8_counterexample :
    (EncodeURIPathInto [some [0, 97], none] 2).map DecodeURIPathFrom =
        some [some [0, 97]] ∧
      ([some [0, 97]] : URIPath) ≠ [some [0, 97], none] ∧
      ParseURI [97, 47, 43, 47, 42] = .ok [some [0, 97], none] := by
  refine ⟨by decide, by decide, rfl⟩

/-- **C8 witness.** -/
theorem c8_witness :
    (([some [0, 97], none, some [2, 99]] : URIPath).length ≤ 5 ∧
      (EncodeURIPathInto [some [0, 97], none, some [2, 99]] 5).map DecodeURIPathFrom =
        some (trimTrailingNone [some [0, 97], none, some [2, 99]])) ∧
    (([NewTimeComponent 2019 0] : TimePath).length ≤ 6 ∧
      (EncodeTimePathInto [NewTimeComponent 2019 0] (List.replicate 6 none)).map
          DecodeTimePathFrom =
        some (trimTrailingNone [NewTimeComponent 2019 0])) :=
  ⟨⟨by decide, c8_roundtrip_trims.1 [some [0, 97], none, some [2, 99]] 5 (by decide)⟩,
   ⟨by decide, c8_roundtrip_trims.2 [NewTimeComponent 2019 0] (by decide)⟩⟩

/-! ## Time component bounds (C6) -/

/-- **C6.**  `TimeComponentBounds` at the day position: five-day indices
1–5 give the range `5·(k−1)+1 .. 5·k`; index 6 extends from day 26 to
the month's natural end, with February depending on the leap-year rule
`y % 4 = 0 ∧ (y % 100 ≠ 0 ∨ y % 400 = 0)`. -/
theorem c6_day_bounds (pfx : TimePath) (y m k : Nat)
    (h0 : quantityAt pfx 0 = some y) (h1 : quantityAt pfx 1 = some m)
    (h2 : quantityAt pfx 2 = some k) (hm : 1 ≤ m ∧ m ≤ 12) :
    (1 ≤ k → k ≤ 5 →
      TimeComponentBounds pfx 3 = some (5 * (k - 1) + 1, 5 * k)) ∧
    (k = 6 → TimeComponentBounds pfx 3 = some (26, monthEnd y m)) := by
  constructor
  · intro hk1 hk5
    have hk6 : ¬k = 6 := by omega
    have e1 : (k + 65535) % 65536 = k - 1 := by omega
    have e2 : (5 * (k - 1) + 1) % 65536 = 5 * (k - 1) + 1 := by omega
    have e3 : 5 * k % 65536 = 5 * k := by omega
    simp only [TimeComponentBounds, h2, hk6, if_false, e1, e2, e3]
  · intro hk
    subst hk
    simp only [TimeComponentBounds, h2, if_pos rfl, h1, h0]
    obtain ⟨hm1, hm2⟩ := hm
    interval_cases m <;>
      · simp only [monthEnd, MaxDay, MaxDayShortMonth, MaxDayFebruary,
          MaxDayFebruaryLeapYear]
        norm_num
        all_goals (split_ifs <;> rfl)

/-- **C6 witness.** -/
theorem c6_witness :
    (quantityAt (encodeQuantities [2016, 2, 6]) 0 = some 2016 ∧
      quantityAt (encodeQuantities [2016, 2, 6]) 1 = some 2 ∧
      quantityAt (encodeQuantities [2016, 2, 6]) 2 = some 6 ∧
      (1 ≤ 2 ∧ 2 ≤ 12)) ∧
    TimeComponentBounds (encodeQuantities [2016, 2, 6]) 3 = some (26, monthEnd 2016 2) :=
  ⟨⟨by decide, by decide, by decide, by decide⟩,
   (c6_day_bounds (encodeQuantities [2016, 2, 6]) 2016 2 6 (by decide) (by decide)
     (by decide) (by decide)).2 rfl⟩

/-! ## Delta attribute lists (C3) -/

theorem attrLookup_cons (a : Nat × Option (List Nat)) (l : AttributeList) (k : Nat) :
    attrLookup (a :: l) k = if a.1 = k then a.2 else attrLookup l k := by
  by_cases h : a.1 = k
  · simp [attrLookup, List.find?_cons_of_pos, h]
  · simp [attrLookup, List.find?_cons_of_neg, h]

theorem toAttrsLoop_lookup_lt :
    ∀ (qs : List Slot) (i k : Nat), k < i → attrLookup (toAttrsLoop i qs) k = none := by
  intro qs
  induction qs with
  | nil => intro i k _; rfl
  | cons q rest ih =>
    intro i k hk
    by_cases h : slotLen q ≠ 0
    · simp only [toAttrsLoop, if_pos h, attrLookup_cons]
      rw [if_neg (by omega)]
      exact ih (i + 1) k (by omega)
    · simp only [toAttrsLoop, if_neg h]
      exact ih (i + 1) k (by omega)

theorem toAttrsLoop_lookup :
    ∀ (qs : List Slot) (i j : Nat), j < qs.length →
      attrLookup (toAttrsLoop i qs) (i + j) =
        if slotLen (qs.getD j none) = 0 then none
        else some (HashToZp (slotBytes (qs.getD j none))) := by
  intro qs
  induction qs with
  | nil => intro i j hj; simp at hj
  | cons q rest ih =>
    intro i j hj
    cases j with
    | zero =>
      by_cases h : slotLen q ≠ 0
      · simp only [toAttrsLoop, if_pos h, attrLookup_cons, Nat.add_zero,
          List.getD_cons_zero]
        simp [h]
      · simp only [toAttrsLoop, if_neg h, Nat.add_zero, List.getD_cons_zero]
        simp only [ne_eq, not_not] at h
        rw [if_pos h]
        exact toAttrsLoop_lookup_lt rest (i + 1) i (by omega)
    | succ j' =>
      have hj' : j' < rest.length := by simp at hj; omega
      have step : i + (j' + 1) = (i + 1) + j' := by omega
      by_cases h : slotLen q ≠ 0
      · simp only [toAttrsLoop, if_pos h, attrLookup_cons]
        rw [if_neg (by omega), step, ih (i + 1) j' hj']
        simp
      · simp only [toAttrsLoop, if_neg h]
        rw [step, ih (i + 1) j' hj']
        simp

theorem tawrLoop_spec :
    ∀ (ps qs : List Slot) (i : Nat) (qA : AttributeList),
      ps.length = qs.length →
      (∀ j, j < qs.length →
        attrLookup qA (i + j) =
          if slotLen (qs.getD j none) = 0 then none
          else some (HashToZp (slotBytes (qs.getD j none)))) →
      tawrLoop qA i ps qs =
        some (toAttrsLoop i ps, (List.zip ps qs).all fun c => bytesEqual c.1 c.2) := by
  intro ps
  induction ps with
  | nil =>
    intro qs i qA hlen _
    cases qs with
    | nil => rfl
    | cons q rest => simp at hlen
  | cons p rest ih =>
    intro qs i qA hlen hq
    cases qs with
    | nil => simp at hlen
    | cons q qrest =>
      have hlen' : rest.length = qrest.length := by simpa using hlen
      have hq' : ∀ j, j < qrest.length →
          attrLookup qA ((i + 1) + j) =
            if slotLen (qrest.getD j none) = 0 then none
            else some (HashToZp (slotBytes (qrest.getD j none))) := by
        intro j hj
        have := hq (j + 1) (by simp; omega)
        rwa [show i + (j + 1) = (i + 1) + j by omega, List.getD_cons_succ] at this
      have hq0 := hq 0 (by simp)
      rw [Nat.add_zero, List.getD_cons_zero] at hq0
      simp only [tawrLoop, ih qrest (i + 1) qA hlen' hq', List.zip_cons_cons,
        List.all_cons]
      by_cases hp : slotLen p ≠ 0
      · rw [if_pos hp]
        by_cases he : bytesEqual p q = true
        · rw [if_pos he]
          have hb : slotBytes q = slotBytes p := by
            simp only [bytesEqual, decide_eq_true_eq] at he
            exact he.symm
          have hqlen : ¬slotLen q = 0 := by
            simp only [slotLen, hb]
            simpa [slotLen] using hp
          rw [hq0, if_neg hqlen, hb]
          simp only [toAttrsLoop, if_pos hp, he, Bool.true_and]
        · rw [if_neg he]
          have hf : bytesEqual p q = false := by simpa using he
          simp only [toAttrsLoop, if_pos hp, hf, Bool.false_and]
      · rw [if_neg hp]
        simp only [ne_eq, not_not] at hp
        by_cases hqe : slotLen q ≠ 0
        · rw [if_pos hqe]
          have hf : bytesEqual p q = false := by
            simp only [bytesEqual, decide_eq_false_iff_not]
            intro hb
            apply hqe
            simp only [slotLen, ← hb]
            simpa [slotLen] using hp
          have hpn : ¬slotLen p ≠ 0 := by omega
          simp only [toAttrsLoop, if_neg hpn, hf, Bool.false_and]
        · rw [if_neg hqe]
          simp only [ne_eq, not_not] at hqe
          have ht : bytesEqual p q = true := by
            simp only [bytesEqual, decide_eq_true_eq]
            have h1 : slotBytes p = [] := List.length_eq_zero.mp hp
            have h2 : slotBytes q = [] := List.length_eq_zero.mp hqe
            rw [h1, h2]
          have hpn : ¬slotLen p ≠ 0 := by omega
          simp only [toAttrsLoop, if_neg hpn, ht, Bool.true_and]

/-- **C3.**  For same-length patterns with `qAttrs = Q.ToAttrs()`,
`P.ToAttrsWithReference(Q, qAttrs)` returns exactly `P.ToAttrs()`
together with a flag.  The claim states the flag is true iff `P` and `Q`
agree on every slot including which slots are free; in the code the flag
is `P.Equals(Q)`, which identifies a free (nil) slot with a zero-length
bound one — the amended claim. -/
theorem c3_toAttrsWithReference (p q : Pattern) (qAttrs : AttributeList)
    (hlen : p.length = q.length) (hq : qAttrs = Pattern.ToAttrs q) :
    Pattern.ToAttrsWithReference p q qAttrs =
      some (Pattern.ToAttrs p, Pattern.Equals p q) := by
  subst hq
  rw [Pattern.ToAttrsWithReference, Pattern.ToAttrs, Pattern.ToAttrs,
    Equals_eq p q hlen]
  exact tawrLoop_spec p q 0 (toAttrsLoop 0 q) hlen
    (fun j hj => toAttrsLoop_lookup q 0 j hj)

/-- **C3 counterexample.**  At `P = [some []]`, `Q = [none]` the flag is
true although `P`'s slot is bound while `Q`'s is free, so the flag does
not agree with "P and Q agree on every slot, including which slots are
free". -/
theorem c3_counterexample :
    Pattern.ToAttrsWithReference [some []] [none] (Pattern.ToAttrs [none]) =
        some ([], true) ∧
      ¬(∀ i, i < 1 →
        ([some ([] : List Nat)] : Pattern).getD i none =
          ([none] : Pattern).getD i none) := by
  refine ⟨rfl, fun h => ?_⟩
  have := h 0 (by omega)
  simp at this

/-- **C3 witness.** -/
theorem c3_witness :
    (([some [1], none] : Pattern).length = ([some [1], some [2]] : Pattern).length ∧
      Pattern.ToAttrs [some [1], some [2]] = Pattern.ToAttrs [some [1], some [2]]) ∧
      Pattern.ToAttrsWithReference [some [1], none] [some [1], some [2]]
          (Pattern.ToAttrs [some [1], some [2]]) =
        some (Pattern.ToAttrs [some [1], none],
          Pattern.Equals [some [1], none] [some [1], some [2]]) :=
  ⟨⟨by decide, rfl⟩,
   c3_toAttrsWithReference [some [1], none] [some [1], some [2]]
     (Pattern.ToAttrs [some [1], some [2]]) (by decide) rfl⟩

/-! ## The encryption cache fast path (C1) -/

theorem encrypt_output_inv (e e' : EncryptionCacheEntry) (P : Pattern) (r : KeyRand)
    (o : EncryptOutput) (n : Nat)
    (h : EncryptWithPattern e P r = some (e', o, n)) :
    e'.encryptedKey = some o.encryptedKey ∧ e'.key = o.key := by
  unfold EncryptWithPattern at h
  by_cases hid : Pattern.Equals P (e.pattern.getD []) = true
  · rw [if_pos hid] at h
    cases hek : e.encryptedKey with
    | none => rw [hek] at h; exact absurd h (by simp)
    | some c =>
      rw [hek] at h
      simp only [Option.some_inj, Prod.mk.injEq] at h
      obtain ⟨hA, hB, _⟩ := h
      subst hA; subst hB
      exact ⟨hek, rfl⟩
  · rw [if_neg hid] at h
    cases hpat : e.pattern with
    | none =>
      rw [hpat] at h
      simp only [Option.some_inj, Prod.mk.injEq] at h
      obtain ⟨hA, hB, _⟩ := h
      subst hA; subst hB
      exact ⟨rfl, rfl⟩
    | some cached =>
      rw [hpat] at h
      dsimp only [] at h
      cases htw : Pattern.ToAttrsWithReference P cached e.attrs with
      | none => rw [htw] at h; exact absurd h (by simp)
      | some pr =>
        rw [htw] at h
        obtain ⟨attrs, ident2⟩ := pr
        cases ident2 with
        | true =>
          simp only [if_true] at h
          cases hek : e.encryptedKey with
          | none => rw [hek] at h; exact absurd h (by simp)
          | some c =>
            rw [hek] at h
            simp only [Option.some_inj, Prod.mk.injEq] at h
            obtain ⟨hA, hB, _⟩ := h
            subst hA; subst hB
            exact ⟨hek, rfl⟩
        | false =>
          simp only [Bool.false_eq_true, if_false] at h
          cases hprep : e.precomputed with
          | none => rw [hprep] at h; exact absurd h (by simp)
          | some prep0 =>
            rw [hprep] at h
            simp only [Option.some_inj, Prod.mk.injEq] at h
            obtain ⟨hA, hB, _⟩ := h
            subst hA; subst hB
            exact ⟨rfl, rfl⟩

/-- **C1.**  After a successful `EncryptWithPattern` call produced entry
state `e1` and output `o1`, a second sequential call whose pattern
`Equals` the pattern now cached in `e1` takes the read path: it performs
no `wkdibe.EncryptPrepared` invocation (the returned count is `0`),
leaves every field of the entry unchanged, and its output — the
marshalled encapsulation that forms the first `EncryptedKeySize` bytes,
and the symmetric key — equals the first call's. -/
theorem c1_second_encrypt_cached (e0 e1 : EncryptionCacheEntry)
    (P P' : Pattern) (r1 r2 : KeyRand) (o1 : EncryptOutput) (n1 : Nat)
    (h1 : EncryptWithPattern e0 P r1 = some (e1, o1, n1))
    (h2 : Pattern.Equals P' (e1.pattern.getD []) = true) :
    EncryptWithPattern e1 P' r2 = some (e1, o1, 0) := by
  obtain ⟨hek, hkey⟩ := encrypt_output_inv e0 e1 P r1 o1 n1 h1
  unfold EncryptWithPattern
  rw [if_pos h2, hek, hkey]

/-- **C1 witness.** -/
theorem c1_witness :
    EncryptWithPattern EncryptionCacheEntry.empty [some [1], none] ⟨[5, 6], 7⟩ =
        some (⟨some [some [1], none], [(0, some [1])], [5, 6],
            some ⟨7, ⟨[(0, some [1])]⟩⟩, some ⟨[(0, some [1])]⟩⟩,
          ⟨⟨7, ⟨[(0, some [1])]⟩⟩, [5, 6]⟩, 1) ∧
      Pattern.Equals [some [1], none]
        ((⟨some [some [1], none], [(0, some [1])], [5, 6],
            some ⟨7, ⟨[(0, some [1])]⟩⟩,
            some ⟨[(0, some [1])]⟩⟩ : EncryptionCacheEntry).pattern.getD []) = true ∧
      EncryptWithPattern
          ⟨some [some [1], none], [(0, some [1])], [5, 6],
            some ⟨7, ⟨[(0, some [1])]⟩⟩, some ⟨[(0, some [1])]⟩⟩
          [some [1], none] ⟨[8, 9], 10⟩ =
        some (⟨some [some [1], none], [(0, some [1])], [5, 6],
            some ⟨7, ⟨[(0, some [1])]⟩⟩, some ⟨[(0, some [1])]⟩⟩,
          ⟨⟨7, ⟨[(0, some [1])]⟩⟩, [5, 6]⟩, 0) :=
  ⟨by decide, by decide,
   c1_second_encrypt_cached EncryptionCacheEntry.empty
     ⟨some [some [1], none], [(0, some [1])], [5, 6],
       some ⟨7, ⟨[(0, some [1])]⟩⟩, some ⟨[(0, some [1])]⟩⟩
     [some [1], none] [some [1], none] ⟨[5, 6], 7⟩ ⟨[8, 9], 10⟩
     ⟨⟨7, ⟨[(0, some [1])]⟩⟩, [5, 6]⟩ 1 (by decide) (by decide)⟩

/-! ## URI parsing (C5) -/

theorem parseSegsLoop_spec :
    ∀ (segs : List (List Nat)) (i : Nat),
      [] ∉ segs →
      parseSegsLoop (i + segs.length) i segs =
        if [dollarByte] ∈ segs ∨ [starByte] ∈ segs.dropLast then .error ()
        else .ok (decide (segs.getLast? = some [starByte]), buildComps i segs) := by
  intro segs
  induction segs with
  | nil => intro i _; simp [parseSegsLoop, buildComps]
  | cons s rest ih =>
    intro i hne
    have hs_ne : s ≠ [] := fun h => hne (by simp [h])
    have hrest : [] ∉ rest := fun h => hne (by simp [h])
    by_cases hsd : s = [dollarByte]
    · have hv : ValidateURIComponent s = false := by
        simp [ValidateURIComponent, hsd]
      rw [parseSegsLoop, if_pos hv,
        if_pos (Or.inl (show [dollarByte] ∈ s :: rest by
          rw [hsd]; exact List.mem_cons_self _ _))]
    · have hv : ¬ValidateURIComponent s = false := by
        simp [ValidateURIComponent, hs_ne, hsd]
      rw [parseSegsLoop, if_neg hv]
      by_cases hss : s = [starByte]
      · rw [if_pos hss]
        cases rest with
        | nil =>
          rw [if_pos (by simp)]
          subst hss
          have hloop : parseSegsLoop (i + [[starByte]].length) (i + 1) [] =
              .ok (false, []) := rfl
          rw [hloop, if_neg (by decide)]
          rfl
        | cons r rest' =>
          rw [if_neg (by simp only [List.length_cons]; omega)]
          rw [if_pos (Or.inr (show [starByte] ∈ (s :: r :: rest').dropLast by
            rw [List.dropLast_cons₂, hss]
            exact List.mem_cons_self _ _))]
      · rw [if_neg hss]
        have hsd' : [dollarByte] ≠ s := fun h => hsd h.symm
        have hss' : [starByte] ≠ s := fun h => hss h.symm
        have hcond : ([dollarByte] ∈ s :: rest ∨ [starByte] ∈ (s :: rest).dropLast) ↔
            ([dollarByte] ∈ rest ∨ [starByte] ∈ rest.dropLast) := by
          cases rest with
          | nil => simp [hsd']
          | cons r rest' =>
            rw [List.dropLast_cons₂]
            simp [List.mem_cons, hsd', hss']
        have hflag : decide ((s :: rest).getLast? = some [starByte]) =
            decide (rest.getLast? = some [starByte]) := by
          cases rest with
          | nil => simp [List.getLast?_singleton, List.getLast?_nil, hss]
          | cons r rest' => rw [List.getLast?_cons_cons]
        have hbuild : buildComps i (s :: rest) =
            (if s = [plusByte] then none else NewURIComponent s i) ::
              buildComps (i + 1) rest := by
          rw [buildComps, if_neg hss]
        have htot : i + (s :: rest).length = (i + 1) + rest.length := by
          simp only [List.length_cons]; omega
        rw [htot, ih (i + 1) hrest]
        by_cases hc : [dollarByte] ∈ rest ∨ [starByte] ∈ rest.dropLast
        · rw [if_pos hc, if_pos (hcond.mpr hc)]
          split <;> rfl
        · rw [if_neg hc, if_neg (fun h => hc (hcond.mp h)), hflag, hbuild]
          by_cases hsp : s = [plusByte]
          · rw [if_pos hsp, if_pos hsp]
          · rw [if_neg hsp, if_neg hsp]

/-- **C5.**  `ParseURI` splits on `/` and drops empty segments; then a
`+` segment becomes a free slot, any other non-`*` segment becomes a
bound component carrying its index as its position byte, and a terminal
`$` component at the next position is appended iff the last segment is
not `*`.  The claim states the error condition as "`$` occurs in the
input or `*` occurs other than as the final segment"; the code only
rejects a segment that is exactly `"$"` (and `*` in a non-final
segment), which is the amended condition proved here. -/
theorem c5_parseURI_characterisation (uri : List Nat) :
    ParseURI uri =
      if [dollarByte] ∈ uriSegments uri ∨ [starByte] ∈ (uriSegments uri).dropLast
      then .error ()
      else .ok (buildComps 0 (uriSegments uri) ++
        if (uriSegments uri).getLast? = some [starByte] then []
        else [NewURIComponent [dollarByte] (uriSegments uri).length]) := by
  have hne : [] ∉ uriSegments uri := by
    intro h
    have := (List.mem_filter.mp h).2
    simp at this
  rw [ParseURI, ParseURIFromPath]
  have hspec := parseSegsLoop_spec (uriSegments uri) 0 hne
  rw [Nat.zero_add] at hspec
  rw [hspec]
  by_cases hc : [dollarByte] ∈ uriSegments uri ∨ [starByte] ∈ (uriSegments uri).dropLast
  · rw [if_pos hc, if_pos hc]
  · rw [if_neg hc, if_neg hc]
    by_cases hf : (uriSegments uri).getLast? = some [starByte]
    · simp [hf]
    · simp [hf]

/-- **C5 counterexample.**  `'$'` occurs in the input `"a$b"` inside a
longer segment, yet `ParseURI` succeeds — the claim's "error exactly
when `$` occurs in the input" is too broad. -/
theorem c5_counterexample :
    ParseURI [97, 36, 98] = .ok [some [0, 97, 36, 98], some [1, 36]] ∧
      dollarByte ∈ [97, 36, 98] :=
  ⟨rfl, by decide⟩

/-! ## Pattern marshalling round-trip (C7) -/

theorem getLength_putLength (n : Nat) (rest : List Nat) (h : n < 4294967296) :
    getLength (putLength n ++ rest) = some (n, rest) := by
  simp only [putLength, List.cons_append, List.nil_append, getLength,
    Option.some_inj, Prod.mk.injEq]
  exact ⟨by omega, trivial⟩

theorem flattenEntries_cons (e : Nat × List Nat) (E : List (Nat × List Nat)) :
    flattenEntries (e :: E) =
      e.1 % 256 :: e.1 / 256 % 256 :: e.1 / 65536 % 256 :: e.1 / 16777216 % 256 ::
      e.2.length % 256 :: e.2.length / 256 % 256 :: e.2.length / 65536 % 256 ::
      e.2.length / 16777216 % 256 :: (e.2 ++ flattenEntries E) := by
  simp [flattenEntries, putLength]

theorem lastIdxInt_cons (i : Int) (e : Nat × List Nat) (E : List (Nat × List Nat)) :
    lastIdxInt i (e :: E) = lastIdxInt (e.1 : Int) E := by
  cases E with
  | nil => rfl
  | cons f E' =>
    have hg : (f :: E').getLast? = some ((f :: E').getLast (by simp)) :=
      List.getLast?_eq_getLast _ _
    simp only [lastIdxInt, List.getLast?_cons_cons, hg]

theorem le_lastIdxInt :
    ∀ (E : List (Nat × List Nat)) (i : Int),
      List.Chain' (· < ·) (i :: E.map fun e => (e.1 : Int)) → i ≤ lastIdxInt i E := by
  intro E
  induction E with
  | nil => intro i _; exact le_refl i
  | cons e E' ih =>
    intro i hch
    rw [lastIdxInt_cons]
    have h1 : i < (e.1 : Int) := by
      have := List.chain'_cons.mp (by simpa using hch)
      exact this.1
    have h2 : (e.1 : Int) ≤ lastIdxInt (e.1 : Int) E' := by
      apply ih
      have := List.chain'_cons.mp (by simpa using hch)
      simpa using this.2
    omega

theorem unmarshalLoop_entries :
    ∀ (E : List (Nat × List Nat)) (i : Int) (p : Pattern),
      (∀ e ∈ E, e.2 ≠ [] ∧ e.2.length < 4294967296 ∧ e.1 < p.length ∧
        e.1 < 4294967296) →
      List.Chain' (· < ·) (i :: E.map fun e => (e.1 : Int)) →
      unmarshalLoop (lastIdxInt i E) i p (flattenEntries E) =
        some (applyEntries E p) := by
  intro E
  induction E with
  | nil =>
    intro i p _ _
    rw [unmarshalLoop.eq_def, if_pos (show i = lastIdxInt i [] from rfl)]
    rfl
  | cons e E' ih =>
    intro i p hwf hch
    obtain ⟨hne, hlen, hlt, h32⟩ := hwf e (List.mem_cons_self _ _)
    have hch' : List.Chain' (· < ·) ((e.1 : Int) :: E'.map fun f => (f.1 : Int)) := by
      have := List.chain'_cons.mp (by simpa using hch)
      simpa using this.2
    have hige : i < (e.1 : Int) :=
      (List.chain'_cons.mp (by simpa using hch)).1
    have hilast : i ≠ lastIdxInt i (e :: E') := by
      rw [lastIdxInt_cons]
      have := le_lastIdxInt E' (e.1 : Int) hch'
      omega
    rw [flattenEntries_cons, unmarshalLoop.eq_def, if_neg hilast]
    have hdec1 : e.1 % 256 + 256 * (e.1 / 256 % 256) + 65536 * (e.1 / 65536 % 256) +
        16777216 * (e.1 / 16777216 % 256) = e.1 := by omega
    have hdec2 : e.2.length % 256 + 256 * (e.2.length / 256 % 256) +
        65536 * (e.2.length / 65536 % 256) +
        16777216 * (e.2.length / 16777216 % 256) = e.2.length := by omega
    dsimp only
    rw [hdec1, hdec2]
    rw [if_neg (by simpa using hne)]
    rw [if_neg (by
      simp only [List.length_append, not_lt]
      omega)]
    rw [show (e.2 ++ flattenEntries E').take e.2.length = e.2 from List.take_left _ _]
    rw [show (e.2 ++ flattenEntries E').drop e.2.length = flattenEntries E' from
      List.drop_left _ _]
    rw [show setSlot p e.1 (some e.2) = some (p.set e.1 (some e.2)) from by
      rw [setSlot, if_pos hlt]]
    have hlen' : ∀ f ∈ E', f.2 ≠ [] ∧ f.2.length < 4294967296 ∧
        f.1 < (p.set e.1 (some e.2)).length ∧ f.1 < 4294967296 := by
      intro f hf
      obtain ⟨a, b, c, d⟩ := hwf f (List.mem_cons_of_mem _ hf)
      exact ⟨a, b, by rwa [List.length_set], d⟩
    have := ih (e.1 : Int) (p.set e.1 (some e.2)) hlen' hch'
    rw [lastIdxInt_cons]
    exact this

theorem marshalBody_eq_flatten :
    ∀ (l : List Slot) (i : Nat), marshalBody l i = flattenEntries (entriesOfLoop l i) := by
  intro l
  induction l with
  | nil => intro i; rfl
  | cons s rest ih =>
    intro i
    by_cases h : slotLen s = 0
    · simp [marshalBody, entriesOfLoop, h, ih, flattenEntries]
    · have h' : slotBytes s ≠ [] := fun e => h (by simp [slotLen, e])
      simp [marshalBody, entriesOfLoop, h, h', ih, flattenEntries, slotLen]

theorem lastNonempty_le : ∀ p : Pattern, lastNonempty p ≤ p.length := by
  intro p
  induction p with
  | nil => exact le_refl 0
  | cons s rest ih =>
    simp only [lastNonempty]
    split <;> (try split) <;> simp only [List.length_cons] <;> omega

theorem lastNonempty_after :
    ∀ (p : Pattern) (j : Nat), lastNonempty p ≤ j → slotLen (p.getD j none) = 0 := by
  intro p
  induction p with
  | nil => intro j _; rfl
  | cons s rest ih =>
    intro j hj
    simp only [lastNonempty] at hj
    split at hj
    · split at hj
      next hs =>
        cases j with
        | zero => simpa using hs
        | succ j' =>
          rw [List.getD_cons_succ]
          exact ih j' (by omega)
      next hs =>
        cases j with
        | zero => omega
        | succ j' =>
          rw [List.getD_cons_succ]
          exact ih j' (by omega)
    next hk =>
      cases j with
      | zero => omega
      | succ j' =>
        rw [List.getD_cons_succ]
        exact ih j' (by omega)

theorem lastNonempty_last :
    ∀ p : Pattern, 0 < lastNonempty p →
      slotLen (p.getD (lastNonempty p - 1) none) ≠ 0 := by
  intro p
  induction p with
  | nil => intro h; simp [lastNonempty] at h
  | cons s rest ih =>
    intro hpos
    simp only [lastNonempty]
    split
    next hk =>
      split
      next hs =>
        simp [lastNonempty, hk, hs] at hpos
      next hs =>
        simpa using hs
    next hk =>
      obtain ⟨m, hm⟩ := Nat.exists_eq_succ_of_ne_zero hk
      have hrec := ih (by omega)
      rw [hm] at hrec ⊢
      simp only [Nat.add_sub_cancel] at hrec ⊢
      rw [List.getD_cons_succ]
      exact hrec

theorem entriesOfLoop_mem :
    ∀ (l : List Slot) (i : Nat) (x : Nat × List Nat), x ∈ entriesOfLoop l i →
      ∃ k, k < l.length ∧ x.1 = i + k ∧ slotLen (l.getD k none) ≠ 0 ∧
        x.2 = slotBytes (l.getD k none) := by
  intro l
  induction l with
  | nil => intro i x hx; simp [entriesOfLoop] at hx
  | cons s rest ih =>
    intro i x hx
    rw [entriesOfLoop] at hx
    rcases List.mem_append.mp hx with hx | hx
    · by_cases hs : slotLen s = 0
      · rw [if_pos hs] at hx; simp at hx
      · rw [if_neg hs] at hx
        rcases List.mem_singleton.mp hx with rfl
        exact ⟨0, by simp, by omega, by simpa using hs, by simp⟩
    · obtain ⟨k, hk, h1, h2, h3⟩ := ih (i + 1) x hx
      exact ⟨k + 1, by simpa using Nat.succ_lt_succ hk, by omega,
        by simpa using h2, by simpa using h3⟩

theorem entriesOfLoop_mem_of :
    ∀ (l : List Slot) (i k : Nat), k < l.length → slotLen (l.getD k none) ≠ 0 →
      (i + k, slotBytes (l.getD k none)) ∈ entriesOfLoop l i := by
  intro l
  induction l with
  | nil => intro i k hk; simp at hk
  | cons s rest ih =>
    intro i k hk hne
    rw [entriesOfLoop]
    cases k with
    | zero =>
      rw [List.getD_cons_zero] at hne ⊢
      apply List.mem_append.mpr
      left
      rw [if_neg hne]
      simp
    | succ k' =>
      rw [List.getD_cons_succ] at hne ⊢
      apply List.mem_append.mpr
      right
      have := ih (i + 1) k' (by simpa using Nat.lt_of_succ_lt_succ hk) hne
      rwa [show i + 1 + k' = i + (k' + 1) from by omega] at this

theorem entriesOfLoop_chain :
    ∀ (l : List Slot) (i : Nat) (j : Int), j < (i : Int) →
      List.Chain' (· < ·) (j :: (entriesOfLoop l i).map fun e => (e.1 : Int)) := by
  intro l
  induction l with
  | nil => intro i j _; simp [entriesOfLoop]
  | cons s rest ih =>
    intro i j hj
    rw [entriesOfLoop]
    by_cases hs : slotLen s = 0
    · rw [if_pos hs]
      simpa using ih (i + 1) j (by omega)
    · rw [if_neg hs]
      simp only [List.cons_append, List.nil_append, List.map_cons]
      exact List.chain'_cons.mpr ⟨hj, by simpa using ih (i + 1) (i : Int) (by omega)⟩

theorem entriesOfLoop_getLast :
    ∀ (l : List Slot) (i : Nat) (s : Slot), l.getLast? = some s → slotLen s ≠ 0 →
      (entriesOfLoop l i).getLast? = some (i + l.length - 1, slotBytes s) := by
  intro l
  induction l with
  | nil => intro i s h; simp at h
  | cons t rest ih =>
    intro i s hlast hne
    cases rest with
    | nil =>
      rw [List.getLast?_singleton, Option.some_inj] at hlast
      subst hlast
      rw [entriesOfLoop, entriesOfLoop, if_neg hne]
      simp
    | cons r rest' =>
      rw [List.getLast?_cons_cons] at hlast
      have tail := ih (i + 1) s hlast hne
      rw [entriesOfLoop]
      have hnil : entriesOfLoop (r :: rest') (i + 1) ≠ [] := by
        intro h
        rw [h] at tail
        simp at tail
      rw [List.getLast?_append_of_ne_nil _ hnil, tail]
      simp only [List.length_cons, Option.some_inj, Prod.mk.injEq]
      exact ⟨by omega, trivial⟩

theorem applyEntries_length :
    ∀ (E : List (Nat × List Nat)) (p : Pattern),
      (applyEntries E p).length = p.length := by
  intro E
  induction E with
  | nil => intro p; rfl
  | cons e E' ih =>
    intro p
    rw [show applyEntries (e :: E') p = applyEntries E' (p.set e.1 (some e.2)) from rfl,
      ih, List.length_set]

theorem applyEntries_getD_not_mem :
    ∀ (E : List (Nat × List Nat)) (p : Pattern) (j : Nat),
      (∀ e ∈ E, e.1 ≠ j) → (applyEntries E p).getD j none = p.getD j none := by
  intro E
  induction E with
  | nil => intro p j _; rfl
  | cons e E' ih =>
    intro p j hne
    rw [show applyEntries (e :: E') p = applyEntries E' (p.set e.1 (some e.2)) from rfl,
      ih (p.set e.1 (some e.2)) j (fun f hf => hne f (List.mem_cons_of_mem _ hf)),
      List.getD_eq_getElem?_getD, List.getD_eq_getElem?_getD,
      List.getElem?_set_ne (hne e (List.mem_cons_self _ _))]

theorem applyEntries_getD_mem :
    ∀ (E : List (Nat × List Nat)) (p : Pattern) (j : Nat) (bs : List Nat),
      List.Pairwise (fun a b => (a.1 : Int) < (b.1 : Int)) E → (j, bs) ∈ E →
      j < p.length → (applyEntries E p).getD j none = some bs := by
  intro E
  induction E with
  | nil => intro p j bs _ hm; simp at hm
  | cons e E' ih =>
    intro p j bs hpw hm hj
    have hpw' := (List.pairwise_cons.mp hpw).2
    have hgt := (List.pairwise_cons.mp hpw).1
    rw [show applyEntries (e :: E') p = applyEntries E' (p.set e.1 (some e.2)) from rfl]
    rcases List.mem_cons.mp hm with hm | hm
    · have hj1 : j = e.1 := congrArg Prod.fst hm
      have hj2 : bs = e.2 := congrArg Prod.snd hm
      subst hj1
      subst hj2
      rw [applyEntries_getD_not_mem E' (p.set e.1 (some e.2)) e.1
        (fun f hf => by have := hgt f hf; omega)]
      rw [List.getD_eq_getElem?_getD, List.getElem?_set_self (by omega)]
      rfl
    · have hne : e.1 ≠ j := by
        have := hgt (j, bs) hm
        simp only at this
        omega
      exact ih (p.set e.1 (some e.2)) j bs hpw' hm (by rwa [List.length_set])

theorem getD_take {α : Type} (l : List α) (n k : Nat) (d : α) (h : k < n) :
    (l.take n).getD k d = l.getD k d := by
  rw [List.getD_eq_getElem?_getD, List.getD_eq_getElem?_getD,
    List.getElem?_take_of_lt h]

theorem normalizeSlots_length (p : Pattern) :
    (normalizeSlots p).length = p.length := by
  simp [normalizeSlots]

theorem normalizeSlots_getD (p : Pattern) (j : Nat) :
    (normalizeSlots p).getD j none =
      if j < p.length then
        (if slotLen (p.getD j none) = 0 then none
         else some (slotBytes (p.getD j none)))
      else none := by
  by_cases h : j < p.length
  · have h' : j < (normalizeSlots p).length := by rwa [normalizeSlots_length]
    rw [if_pos h, List.getD_eq_getElem?_getD, List.getElem?_eq_getElem h']
    simp only [normalizeSlots, List.getElem_map, Option.getD_some]
    rw [List.getD_eq_getElem?_getD, List.getElem?_eq_getElem h]
    rfl
  · rw [if_neg h, List.getD_eq_getElem?_getD,
      List.getElem?_eq_none (by rw [normalizeSlots_length]; omega)]
    rfl

theorem ext_from_getD (l1 l2 : Pattern) (hlen : l1.length = l2.length)
    (h : ∀ j, j < l1.length → l1.getD j none = l2.getD j none) : l1 = l2 := by
  apply List.ext_getElem hlen
  intro j h1 h2
  have hj := h j h1
  rw [List.getD_eq_getElem?_getD, List.getD_eq_getElem?_getD,
    List.getElem?_eq_getElem h1, List.getElem?_eq_getElem h2] at hj
  simpa using hj

/-- **C7.**  `Pattern.Unmarshal ∘ Pattern.Marshal` succeeds and returns a
pattern of the same length that is slot-wise byte-equal to the original
(each slot normalised: a zero-length or nil slot becomes nil, a bound
slot keeps its bytes), and `Marshal`'s wire form is the type byte
`0x01`, the 32-bit pattern length, the 32-bit index one past the last
nonempty slot, and each nonempty slot among those indices as
`<index><length><bytes>`.  The 32-bit-length hypotheses reflect the Go
uint32 length fields. -/
theorem c7_marshal_roundtrip (p : Pattern) (h1 : p.length < 4294967296)
    (h2 : ∀ s ∈ p, slotLen s < 4294967296) :
    Pattern.Unmarshal (Pattern.Marshal p) = some (normalizeSlots p) ∧
      (normalizeSlots p).length = p.length ∧
      (∀ i, slotBytes ((normalizeSlots p).getD i none) = slotBytes (p.getD i none)) ∧
      Pattern.Marshal p = MarshalledTypePattern ::
        (putLength p.length ++ putLength (lastNonempty p) ++
          flattenEntries (entriesOfLoop (p.take (lastNonempty p)) 0)) := by
  have hKle := lastNonempty_le p
  set K := lastNonempty p with hKdef
  set E := entriesOfLoop (p.take K) 0 with hEdef
  have htakelen : (p.take K).length = K := by rw [List.length_take]; omega
  have hwire : Pattern.Marshal p = MarshalledTypePattern ::
      (putLength p.length ++ putLength K ++ flattenEntries E) := by
    rw [Pattern.Marshal, marshalBody_eq_flatten]
  have hEmem : ∀ e ∈ E, e.2 ≠ [] ∧ e.2.length < 4294967296 ∧
      e.1 < (List.replicate p.length (none : Slot)).length ∧ e.1 < 4294967296 := by
    intro e he
    obtain ⟨k, hk, hidx, hne, hbytes⟩ := entriesOfLoop_mem _ 0 e he
    have hkK : k < K := by omega
    rw [getD_take p K k none hkK] at hne hbytes
    have hmem : p.getD k none ∈ p := by
      rw [List.getD_eq_getElem?_getD, List.getElem?_eq_getElem (by omega)]
      exact List.getElem_mem _
    refine ⟨?_, ?_, ?_, by omega⟩
    · rw [hbytes]
      intro hnil
      exact hne (by rw [slotLen, hnil]; rfl)
    · rw [hbytes]
      exact h2 _ hmem
    · rw [List.length_replicate]
      omega
  have hchain := entriesOfLoop_chain (p.take K) 0 (-1) (by omega)
  rw [← hEdef] at hchain
  have hlast : lastIdxInt (-1) E = (K : Int) - 1 := by
    by_cases hK0 : K = 0
    · rw [hEdef, hK0]
      rfl
    · obtain ⟨m, hm⟩ := Nat.exists_eq_succ_of_ne_zero hK0
      have hlastslot : (p.take K).getLast? = some (p.getD m none) := by
        rw [List.getLast?_eq_getElem?, htakelen, hm, Nat.succ_sub_one,
          List.getElem?_take_of_lt (by omega),
          List.getElem?_eq_getElem (by omega : m < p.length),
          List.getD_eq_getElem?_getD, List.getElem?_eq_getElem (by omega)]
        rfl
      have hne0 : slotLen (p.getD m none) ≠ 0 := by
        have hll := lastNonempty_last p (by omega)
        rwa [← hKdef, hm, Nat.succ_sub_one] at hll
      have hgl := entriesOfLoop_getLast (p.take K) 0 _ hlastslot hne0
      rw [← hEdef, htakelen] at hgl
      simp only [lastIdxInt, hgl]
      omega
  have hloop := unmarshalLoop_entries E (-1) (List.replicate p.length none) hEmem hchain
  have happly : applyEntries E (List.replicate p.length none) = normalizeSlots p := by
    apply ext_from_getD
    · rw [applyEntries_length, List.length_replicate, normalizeSlots_length]
    · intro j hj
      have hjlen : j < p.length := by
        rwa [applyEntries_length, List.length_replicate] at hj
      by_cases hs : slotLen (p.getD j none) = 0
      · rw [applyEntries_getD_not_mem]
        · rw [normalizeSlots_getD, if_pos hjlen, if_pos hs,
            List.getD_eq_getElem?_getD, List.getElem?_replicate_of_lt hjlen]
          rfl
        · intro e he
          obtain ⟨k, hk, hidx, hne, _⟩ := entriesOfLoop_mem _ 0 e he
          have hkK : k < K := by omega
          rw [getD_take p K k none hkK] at hne
          intro hej
          apply hne
          have hkj : k = j := by omega
          rw [hkj]
          exact hs
      · have hjK : j < K := by
          by_contra hge
          exact hs (lastNonempty_after p j (by omega))
        have hmem := entriesOfLoop_mem_of (p.take K) 0 j (by omega)
          (by rwa [getD_take p K j none hjK])
        rw [getD_take p K j none hjK, Nat.zero_add] at hmem
        rw [← hEdef] at hmem
        have hpw : List.Pairwise (fun a b : Nat × List Nat =>
            (a.1 : Int) < (b.1 : Int)) E := by
          have htail : List.Chain' (· < ·) (E.map fun e => (e.1 : Int)) :=
            hchain.tail
          exact List.pairwise_map.mp (List.chain'_iff_pairwise.mp htail)
        rw [applyEntries_getD_mem E _ j _ hpw hmem
          (by rw [List.length_replicate]; omega)]
        rw [normalizeSlots_getD, if_pos hjlen, if_neg hs]
  have hbytes : ∀ i, slotBytes ((normalizeSlots p).getD i none) =
      slotBytes (p.getD i none) := by
    intro i
    rw [normalizeSlots_getD]
    by_cases h : i < p.length
    · rw [if_pos h]
      by_cases hs : slotLen (p.getD i none) = 0
      · rw [if_pos hs]
        have hz : slotBytes (p.getD i none) = [] := List.length_eq_zero.mp hs
        rw [hz]
        rfl
      · rw [if_neg hs]
        rfl
    · rw [if_neg h, List.getD_eq_getElem?_getD (l := p),
        List.getElem?_eq_none (by omega)]
      rfl
  refine ⟨?_, normalizeSlots_length p, hbytes, hwire⟩
  rw [hwire, Pattern.Unmarshal]
  rw [if_neg (by simp [MarshalledTypePattern])]
  rw [List.append_assoc]
  rw [getLength_putLength p.length _ h1]
  dsimp only
  rw [getLength_putLength K _ (by omega)]
  dsimp only
  rw [← hlast, hloop, happly]

/-- **C7 witness.** -/
theorem c7_witness :
    (([some [7, 8], none, some [], some [9], none] : Pattern).length < 4294967296 ∧
      ∀ s ∈ ([some [7, 8], none, some [], some [9], none] : Pattern),
        slotLen s < 4294967296) ∧
      Pattern.Unmarshal (Pattern.Marshal [some [7, 8], none, some [], some [9], none]) =
        some (normalizeSlots [some [7, 8], none, some [], some [9], none]) :=
  ⟨⟨by decide, by decide⟩,
   (c7_marshal_roundtrip [some [7, 8], none, some [], some [9], none]
     (by decide) (by decide)).1⟩

/-! ## The covering time-range decomposition (C4) -/

theorem lexLe_refl : ∀ a : List Nat, lexLe a a = true := by
  intro a
  induction a with
  | nil => rfl
  | cons x xs ih => simp [lexLe, ih]

theorem lexLe_trans :
    ∀ a b c : List Nat, lexLe a b = true → lexLe b c = true → lexLe a c = true := by
  intro a
  induction a with
  | nil => intro b c _ _; rfl
  | cons x xs ih =>
    intro b c hab hbc
    cases b with
    | nil => simp [lexLe] at hab
    | cons y ys =>
      cases c with
      | nil => simp [lexLe] at hbc
      | cons z zs =>
        simp only [lexLe, Bool.or_eq_true, Bool.and_eq_true, decide_eq_true_eq] at *
        rcases hab with h1 | ⟨h1, h1'⟩ <;> rcases hbc with h2 | ⟨h2, h2'⟩
        · exact Or.inl (by omega)
        · exact Or.inl (by omega)
        · exact Or.inl (by omega)
        · exact Or.inr ⟨by omega, ih ys zs h1' h2'⟩

theorem lexLe_append_cancel :
    ∀ (p a b : List Nat), lexLe (p ++ a) (p ++ b) = lexLe a b := by
  intro p
  induction p with
  | nil => intro a b; rfl
  | cons x xs ih =>
    intro a b
    simp only [List.cons_append, lexLe, lt_self_iff_false, decide_False,
      Bool.false_or, decide_True, Bool.true_and, ih]
    rw [show xs.append a = xs ++ a from rfl, show xs.append b = xs ++ b from rfl, ih]

theorem lexLe_cons_of_lt (x y : Nat) (u v : List Nat) (h : x < y) :
    lexLe (x :: u) (y :: v) = true := by
  simp [lexLe, h]

theorem lexLe_cons_false (x y : Nat) (u v : List Nat) (h : y < x) :
    lexLe (x :: u) (y :: v) = false := by
  simp [lexLe]
  omega

theorem lexLe_head_le (x y : Nat) (u v : List Nat)
    (h : lexLe (x :: u) (y :: v) = true) : x ≤ y := by
  simp only [lexLe, Bool.or_eq_true, Bool.and_eq_true, decide_eq_true_eq] at h
  rcases h with h | ⟨h, _⟩ <;> omega

theorem extendLo_length : ∀ (d : Nat) (p : List Nat),
    (extendLo d p).length = p.length + d := by
  intro d
  induction d with
  | zero => intro p; rfl
  | succ d' ih =>
    intro p
    rw [extendLo, ih, List.length_append]
    simp only [List.length_cons, List.length_nil]
    omega

theorem extendHi_length : ∀ (d : Nat) (p : List Nat),
    (extendHi d p).length = p.length + d := by
  intro d
  induction d with
  | zero => intro p; rfl
  | succ d' ih =>
    intro p
    rw [extendHi, ih, List.length_append]
    simp only [List.length_cons, List.length_nil]
    omega

theorem extendLo_take : ∀ (d : Nat) (p : List Nat),
    (extendLo d p).take p.length = p := by
  intro d
  induction d with
  | zero => intro p; exact List.take_length ..
  | succ d' ih =>
    intro p
    rw [extendLo]
    have h1 := ih (p ++ [(childBounds p).1])
    have h2 : (extendLo d' (p ++ [(childBounds p).1])).take p.length =
        ((extendLo d' (p ++ [(childBounds p).1])).take (p ++ [(childBounds p).1]).length).take
          p.length := by
      rw [List.take_take]
      congr 1
      simp only [List.length_append, List.length_cons, List.length_nil]
      omega
    rw [h2, h1, List.take_left' (by rfl)]

theorem extendHi_take : ∀ (d : Nat) (p : List Nat),
    (extendHi d p).take p.length = p := by
  intro d
  induction d with
  | zero => intro p; exact List.take_length ..
  | succ d' ih =>
    intro p
    rw [extendHi]
    have h1 := ih (p ++ [(childBounds p).2])
    have h2 : (extendHi d' (p ++ [(childBounds p).2])).take p.length =
        ((extendHi d' (p ++ [(childBounds p).2])).take (p ++ [(childBounds p).2]).length).take
          p.length := by
      rw [List.take_take]
      congr 1
      simp only [List.length_append, List.length_cons, List.length_nil]
      omega
    rw [h2, h1, List.take_left' (by rfl)]

theorem nodeLo_of_full (p : List Nat) (h : 6 ≤ p.length) : nodeLo p = p := by
  rw [nodeLo, show 6 - p.length = 0 from by omega]
  rfl

theorem nodeHi_of_full (p : List Nat) (h : 6 ≤ p.length) : nodeHi p = p := by
  rw [nodeHi, show 6 - p.length = 0 from by omega]
  rfl

theorem nodeLo_step (p : List Nat) (h : p.length < 6) :
    nodeLo p = nodeLo (p ++ [(childBounds p).1]) := by
  rw [nodeLo, nodeLo, show 6 - p.length = (6 - (p ++ [(childBounds p).1]).length) + 1
    from by simp; omega]
  rfl

theorem nodeHi_step (p : List Nat) (h : p.length < 6) :
    nodeHi p = nodeHi (p ++ [(childBounds p).2]) := by
  rw [nodeHi, nodeHi, show 6 - p.length = (6 - (p ++ [(childBounds p).2]).length) + 1
    from by simp; omega]
  rfl

theorem nodeLo_length (p : List Nat) (h : p.length ≤ 6) :
    (nodeLo p).length = 6 := by
  rw [nodeLo, extendLo_length]
  omega

theorem nodeHi_length (p : List Nat) (h : p.length ≤ 6) :
    (nodeHi p).length = 6 := by
  rw [nodeHi, extendHi_length]
  omega

theorem nodeLo_shape (p : List Nat) (h : p.length < 6) :
    nodeLo p = p ++ (childBounds p).1 :: (nodeLo p).drop (p.length + 1) := by
  have hstep := nodeLo_step p h
  have htk : (nodeLo p).take (p.length + 1) = p ++ [(childBounds p).1] := by
    rw [hstep, nodeLo]
    have := extendLo_take (6 - (p ++ [(childBounds p).1]).length) (p ++ [(childBounds p).1])
    simpa using this
  calc nodeLo p = (nodeLo p).take (p.length + 1) ++ (nodeLo p).drop (p.length + 1) :=
        (List.take_append_drop _ _).symm
    _ = p ++ (childBounds p).1 :: (nodeLo p).drop (p.length + 1) := by
        rw [htk, List.append_assoc]
        rfl

theorem nodeHi_shape (p : List Nat) (h : p.length < 6) :
    nodeHi p = p ++ (childBounds p).2 :: (nodeHi p).drop (p.length + 1) := by
  have hstep := nodeHi_step p h
  have htk : (nodeHi p).take (p.length + 1) = p ++ [(childBounds p).2] := by
    rw [hstep, nodeHi]
    have := extendHi_take (6 - (p ++ [(childBounds p).2]).length) (p ++ [(childBounds p).2])
    simpa using this
  calc nodeHi p = (nodeHi p).take (p.length + 1) ++ (nodeHi p).drop (p.length + 1) :=
        (List.take_append_drop _ _).symm
    _ = p ++ (childBounds p).2 :: (nodeHi p).drop (p.length + 1) := by
        rw [htk, List.append_assoc]
        rfl

theorem validFrom_iff :
    ∀ (l acc : List Nat),
      validFrom acc l = true ↔
        ∀ i, i < l.length →
          (childBounds (acc ++ l.take i)).1 ≤ l.getD i 0 ∧
            l.getD i 0 ≤ (childBounds (acc ++ l.take i)).2 := by
  intro l
  induction l with
  | nil => intro acc; simp [validFrom]
  | cons q rest ih =>
    intro acc
    have hshift : ∀ j, acc ++ (q :: rest).take (j + 1) = (acc ++ [q]) ++ rest.take j := by
      intro j
      rw [List.take_succ_cons, List.append_assoc, List.singleton_append]
    simp only [validFrom, Bool.and_eq_true, decide_eq_true_eq, ih (acc ++ [q])]
    constructor
    · rintro ⟨⟨h1, h2⟩, h⟩ i hi
      cases i with
      | zero =>
        simpa [List.take_zero, List.append_nil] using And.intro h1 h2
      | succ j =>
        have hj := h j (by simpa using Nat.lt_of_succ_lt_succ hi)
        rw [hshift j, List.getD_cons_succ]
        exact hj
    · intro h
      refine ⟨?_, fun j hj => ?_⟩
      · have h0 := h 0 (by simp)
        simpa [List.take_zero, List.append_nil] using h0
      · have hj := h (j + 1) (by simpa using Nat.succ_lt_succ hj)
        rw [hshift j, List.getD_cons_succ] at hj
        exact hj

theorem validPath_bounds (q : List Nat) (hq : validPath q = true) (i : Nat)
    (hi : i < q.length) :
    (childBounds (q.take i)).1 ≤ q.getD i 0 ∧
      q.getD i 0 ≤ (childBounds (q.take i)).2 := by
  have := (validFrom_iff q []).mp hq i hi
  simpa using this

theorem validPath_take (q : List Nat) (hq : validPath q = true) (n : Nat) :
    validPath (q.take n) = true := by
  rw [validPath, validFrom_iff]
  intro i hi
  have hilen : i < q.length := by
    rw [List.length_take] at hi
    omega
  have hin : i < n := by
    rw [List.length_take] at hi
    omega
  have htt : (q.take n).take i = q.take i := by
    rw [List.take_take]
    congr 1
    omega
  rw [List.nil_append, htt, getD_take q n i 0 hin]
  exact validPath_bounds q hq i hilen

theorem validFrom_append :
    ∀ (l acc : List Nat) (x : Nat),
      validFrom acc (l ++ [x]) =
        (validFrom acc l &&
          (decide ((childBounds (acc ++ l)).1 ≤ x) &&
            decide (x ≤ (childBounds (acc ++ l)).2))) := by
  intro l
  induction l with
  | nil =>
    intro acc x
    simp [validFrom]
  | cons q rest ih =>
    intro acc x
    rw [List.cons_append, validFrom, validFrom, ih (acc ++ [q]) x,
      List.append_assoc, List.singleton_append]
    simp only [Bool.and_assoc]

theorem validPath_append (p : List Nat) (x : Nat) :
    validPath (p ++ [x]) =
      (validPath p &&
        (decide ((childBounds p).1 ≤ x) && decide (x ≤ (childBounds p).2))) := by
  rw [validPath, validFrom_append, validPath]
  simp

theorem childBounds_nil : childBounds ([] : List Nat) = (2015, 2050) := rfl

theorem childBounds_one (a : Nat) : childBounds [a] = (1, 12) := rfl

theorem childBounds_two (a b : Nat) : childBounds [a, b] = (1, 6) := rfl

theorem childBounds_four (a b c d : Nat) : childBounds [a, b, c, d] = (1, 4) := rfl

theorem childBounds_lt (p : List Nat) (hv : validPath p = true) (hl : p.length < 6) :
    (childBounds p).1 < (childBounds p).2 ∧ (childBounds p).2 ≤ 2050 := by
  rcases p with _ | ⟨a, _ | ⟨b, _ | ⟨c, _ | ⟨d, _ | ⟨e', rest⟩⟩⟩⟩⟩
  · rw [childBounds_nil]
    exact ⟨by norm_num, by norm_num⟩
  · rw [childBounds_one]
    exact ⟨by norm_num, by norm_num⟩
  · rw [childBounds_two]
    exact ⟨by norm_num, by norm_num⟩
  · have hb : 1 ≤ b ∧ b ≤ 12 := by
      have := validPath_bounds [a, b, c] hv 1 (by norm_num)
      simpa [childBounds_one] using this
    have hc : 1 ≤ c ∧ c ≤ 6 := by
      have := validPath_bounds [a, b, c] hv 2 (by norm_num)
      simpa [childBounds_two] using this
    have e2 : quantityAt (encodeQuantities [a, b, c]) 2 =
        some (c % 256 + 256 * (c / 256 % 256)) := rfl
    have e1 : quantityAt (encodeQuantities [a, b, c]) 1 =
        some (b % 256 + 256 * (b / 256 % 256)) := rfl
    have e0 : quantityAt (encodeQuantities [a, b, c]) 0 =
        some (a % 256 + 256 * (a / 256 % 256)) := rfl
    have ec : c % 256 + 256 * (c / 256 % 256) = c := by omega
    have eb : b % 256 + 256 * (b / 256 % 256) = b := by omega
    have hcb : childBounds [a, b, c] =
        (TimeComponentBounds (encodeQuantities [a, b, c]) 3).getD (0, 0) := rfl
    rw [hcb]
    simp only [TimeComponentBounds, e2, e1, e0, ec, eb]
    by_cases hc6 : c = 6
    · subst hc6
      rw [if_pos rfl]
      obtain ⟨hb1, hb2⟩ := hb
      interval_cases b <;>
        · simp only [MaxDay, MaxDayShortMonth, MaxDayFebruary, MaxDayFebruaryLeapYear]
          norm_num
          try (split_ifs <;> norm_num)
    · rw [if_neg hc6]
      simp only [Option.getD_some]
      obtain ⟨hc1, hc2⟩ := hc
      have m1 : (c + 65535) % 65536 = c - 1 := by omega
      have m2 : (5 * (c - 1) + 1) % 65536 = 5 * (c - 1) + 1 :=
        Nat.mod_eq_of_lt (by omega)
      have m3 : 5 * c % 65536 = 5 * c := Nat.mod_eq_of_lt (by omega)
      rw [m1, m2, m3]
      omega
  · rw [show childBounds [a, b, c, d] = (1, 4) from childBounds_four a b c d]
    exact ⟨by norm_num, by norm_num⟩
  · cases rest with
    | cons f rest' =>
      simp only [List.length_cons] at hl
      omega
    | nil =>
      have he : 1 ≤ e' ∧ e' ≤ 4 := by
        have := validPath_bounds [a, b, c, d, e'] hv 4 (by norm_num)
        simpa [childBounds_four] using this
      have e4 : quantityAt (encodeQuantities [a, b, c, d, e']) 4 =
          some (e' % 256 + 256 * (e' / 256 % 256)) := rfl
      have ee : e' % 256 + 256 * (e' / 256 % 256) = e' := by omega
      have hcb : childBounds [a, b, c, d, e'] =
          (TimeComponentBounds (encodeQuantities [a, b, c, d, e']) 5).getD (0, 0) := rfl
      rw [hcb]
      simp only [TimeComponentBounds, e4, ee, Option.getD_some]
      obtain ⟨he1, he2⟩ := he
      have m1 : (e' + 65535) % 65536 = e' - 1 := by omega
      have m2 : 6 * (e' - 1) % 65536 = 6 * (e' - 1) :=
        Nat.mod_eq_of_lt (by omega)
      have m3 : (6 * e' + 65535) % 65536 = 6 * e' - 1 := by omega
      rw [m1, m2, m3]
      omega

theorem take_succ_getD (l : List Nat) (n : Nat) (h : n < l.length) :
    l.take (n + 1) = l.take n ++ [l.getD n 0] := by
  rw [List.take_succ, List.getElem?_eq_getElem h]
  rw [List.getD_eq_getElem?_getD, List.getElem?_eq_getElem h]
  rfl

theorem split_at_getD (l : List Nat) (n : Nat) (h : n < l.length) :
    l = l.take n ++ l.getD n 0 :: l.drop (n + 1) := by
  conv_lhs => rw [← List.take_append_drop n l]
  congr 1
  rw [List.drop_eq_getElem_cons h]
  congr 1
  rw [List.getD_eq_getElem?_getD, List.getElem?_eq_getElem h]
  rfl

theorem validPath_child (p : List Nat) (x : Nat) (hv : validPath p = true)
    (h1 : (childBounds p).1 ≤ x) (h2 : x ≤ (childBounds p).2) :
    validPath (p ++ [x]) = true := by
  rw [validPath_append, hv]
  simp only [Bool.true_and, Bool.and_eq_true, decide_eq_true_eq]
  exact ⟨h1, h2⟩

theorem validPath_extendLo :
    ∀ (d : Nat) (p : List Nat), p.length + d ≤ 6 → validPath p = true →
      validPath (extendLo d p) = true := by
  intro d
  induction d with
  | zero => intro p _ hv; exact hv
  | succ d ih =>
    intro p hlen hv
    have hcb := childBounds_lt p hv (by omega)
    simp only [extendLo]
    exact ih (p ++ [(childBounds p).1]) (by simp; omega)
      (validPath_child p _ hv le_rfl (by omega))

theorem validPath_extendHi :
    ∀ (d : Nat) (p : List Nat), p.length + d ≤ 6 → validPath p = true →
      validPath (extendHi d p) = true := by
  intro d
  induction d with
  | zero => intro p _ hv; exact hv
  | succ d ih =>
    intro p hlen hv
    have hcb := childBounds_lt p hv (by omega)
    simp only [extendHi]
    exact ih (p ++ [(childBounds p).2]) (by simp; omega)
      (validPath_child p _ hv (by omega) le_rfl)

theorem validPath_nodeLo (p : List Nat) (h : p.length ≤ 6) (hv : validPath p = true) :
    validPath (nodeLo p) = true :=
  validPath_extendLo (6 - p.length) p (by omega) hv

theorem validPath_nodeHi (p : List Nat) (h : p.length ≤ 6) (hv : validPath p = true) :
    validPath (nodeHi p) = true :=
  validPath_extendHi (6 - p.length) p (by omega) hv

theorem hourIn_nodeLo (p : List Nat) (h : p.length ≤ 6) (hv : validPath p = true) :
    hourIn p (nodeLo p) = true := by
  rw [hourIn, validHour, validPath_nodeLo p h hv, nodeLo_length p h]
  have htk : (nodeLo p).take p.length = p := extendLo_take (6 - p.length) p
  rw [htk]
  simp

theorem hourIn_nodeHi (p : List Nat) (h : p.length ≤ 6) (hv : validPath p = true) :
    hourIn p (nodeHi p) = true := by
  rw [hourIn, validHour, validPath_nodeHi p h hv, nodeHi_length p h]
  have htk : (nodeHi p).take p.length = p := extendHi_take (6 - p.length) p
  rw [htk]
  simp

theorem lexLe_nodeLo_aux :
    ∀ (d : Nat) (p q : List Nat), p.length + d = 6 → validPath p = true →
      hourIn p q = true → lexLe (nodeLo p) q = true := by
  intro d
  induction d with
  | zero =>
    intro p q hlen hv hq
    rw [hourIn, Bool.and_eq_true, decide_eq_true_eq] at hq
    obtain ⟨hval, htk⟩ := hq
    rw [validHour, Bool.and_eq_true, decide_eq_true_eq] at hval
    have hq' : q = p := by
      rw [← htk]
      exact (List.take_of_length_le (by omega)).symm
    rw [nodeLo_of_full p (by omega), hq']
    exact lexLe_refl p
  | succ d ih =>
    intro p q hlen hv hq
    have hlt : p.length < 6 := by omega
    have hq0 := hq
    rw [hourIn, Bool.and_eq_true, decide_eq_true_eq] at hq0
    obtain ⟨hval, htk⟩ := hq0
    have hval' := hval
    rw [validHour, Bool.and_eq_true, decide_eq_true_eq] at hval'
    obtain ⟨hvq, hq6⟩ := hval'
    have hplen : p.length < q.length := by omega
    have hx := validPath_bounds q hvq p.length hplen
    rw [htk] at hx
    have hsplit := split_at_getD q p.length hplen
    rw [htk] at hsplit
    by_cases hcase : q.getD p.length 0 = (childBounds p).1
    · have hq' : hourIn (p ++ [(childBounds p).1]) q = true := by
        rw [hourIn, hval, Bool.true_and, decide_eq_true_eq]
        simp only [List.length_append, List.length_cons, List.length_nil]
        rw [take_succ_getD q p.length hplen, htk, hcase]
      have hcb := childBounds_lt p hv hlt
      have hvchild : validPath (p ++ [(childBounds p).1]) = true :=
        validPath_child p _ hv le_rfl (by omega)
      rw [nodeLo_step p hlt]
      exact ih (p ++ [(childBounds p).1]) q (by simp; omega) hvchild hq'
    · have hlo : (childBounds p).1 < q.getD p.length 0 := by omega
      rw [nodeLo_shape p hlt]
      conv_lhs => rw [hsplit]
      rw [lexLe_append_cancel]
      exact lexLe_cons_of_lt _ _ _ _ hlo

theorem lexLe_nodeHi_aux :
    ∀ (d : Nat) (p q : List Nat), p.length + d = 6 → validPath p = true →
      hourIn p q = true → lexLe q (nodeHi p) = true := by
  intro d
  induction d with
  | zero =>
    intro p q hlen hv hq
    rw [hourIn, Bool.and_eq_true, decide_eq_true_eq] at hq
    obtain ⟨hval, htk⟩ := hq
    rw [validHour, Bool.and_eq_true, decide_eq_true_eq] at hval
    have hq' : q = p := by
      rw [← htk]
      exact (List.take_of_length_le (by omega)).symm
    rw [nodeHi_of_full p (by omega), hq']
    exact lexLe_refl p
  | succ d ih =>
    intro p q hlen hv hq
    have hlt : p.length < 6 := by omega
    have hq0 := hq
    rw [hourIn, Bool.and_eq_true, decide_eq_true_eq] at hq0
    obtain ⟨hval, htk⟩ := hq0
    have hval' := hval
    rw [validHour, Bool.and_eq_true, decide_eq_true_eq] at hval'
    obtain ⟨hvq, hq6⟩ := hval'
    have hplen : p.length < q.length := by omega
    have hx := validPath_bounds q hvq p.length hplen
    rw [htk] at hx
    have hsplit := split_at_getD q p.length hplen
    rw [htk] at hsplit
    by_cases hcase : q.getD p.length 0 = (childBounds p).2
    · have hq' : hourIn (p ++ [(childBounds p).2]) q = true := by
        rw [hourIn, hval, Bool.true_and, decide_eq_true_eq]
        simp only [List.length_append, List.length_cons, List.length_nil]
        rw [take_succ_getD q p.length hplen, htk, hcase]
      have hcb := childBounds_lt p hv hlt
      have hvchild : validPath (p ++ [(childBounds p).2]) = true :=
        validPath_child p _ hv (by omega) le_rfl
      rw [nodeHi_step p hlt]
      exact ih (p ++ [(childBounds p).2]) q (by simp; omega) hvchild hq'
    · have hhi : q.getD p.length 0 < (childBounds p).2 := by omega
      rw [nodeHi_shape p hlt]
      conv_lhs => rw [hsplit]
      rw [lexLe_append_cancel]
      exact lexLe_cons_of_lt _ _ _ _ hhi

theorem lexLe_nodeLo_hourIn (p q : List Nat) (h : p.length ≤ 6)
    (hv : validPath p = true) (hq : hourIn p q = true) :
    lexLe (nodeLo p) q = true :=
  lexLe_nodeLo_aux (6 - p.length) p q (by omega) hv hq

theorem lexLe_nodeHi_hourIn (p q : List Nat) (h : p.length ≤ 6)
    (hv : validPath p = true) (hq : hourIn p q = true) :
    lexLe q (nodeHi p) = true :=
  lexLe_nodeHi_aux (6 - p.length) p q (by omega) hv hq

theorem hourIn_of_extend (p : List Nat) (x : Nat) (q : List Nat)
    (h : hourIn (p ++ [x]) q = true) : hourIn p q = true := by
  rw [hourIn, Bool.and_eq_true, decide_eq_true_eq] at h
  obtain ⟨hval, htk⟩ := h
  rw [hourIn, hval, Bool.true_and, decide_eq_true_eq]
  have h1 : (q.take (p ++ [x]).length).take p.length = q.take p.length := by
    rw [List.take_take]
    congr 1
    simp only [List.length_append, List.length_cons, List.length_nil]
    omega
  rw [← h1, htk]
  exact List.take_left p [x]

theorem hourCovered_flat (f : Nat → List (List Nat)) (l : List Nat) (q : List Nat) :
    hourCovered (l.flatMap f) q = l.any fun x => hourCovered (f x) q := by
  rw [hourCovered, List.any_flatMap]
  rfl

theorem coverNode_hours :
    ∀ (d : Nat) (pfx : List Nat), pfx.length + d = 6 → validPath pfx = true →
      ∀ (s e q : List Nat), overlaps pfx s e = true →
        hourCovered (coverNode d pfx s e) q =
          (hourIn pfx q && (lexLe s q && lexLe q e)) := by
  intro d
  induction d with
  | zero =>
    intro pfx hlen hv s e q hov
    rw [overlaps, Bool.and_eq_true] at hov
    obtain ⟨hov1, hov2⟩ := hov
    rw [nodeLo_of_full pfx (by omega)] at hov1
    rw [nodeHi_of_full pfx (by omega)] at hov2
    simp only [coverNode]
    rw [hourCovered]
    simp only [List.any_cons, List.any_nil, Bool.or_false]
    cases hq : hourIn pfx q with
    | false => rfl
    | true =>
      have hqeq : q = pfx := by
        rw [hourIn, Bool.and_eq_true, decide_eq_true_eq] at hq
        obtain ⟨hval, htk⟩ := hq
        rw [validHour, Bool.and_eq_true, decide_eq_true_eq] at hval
        rw [← htk]
        exact (List.take_of_length_le (by omega)).symm
      rw [hqeq, hov1, hov2]
      rfl
  | succ d ih =>
    intro pfx hlen hv s e q hov
    have hlt : pfx.length < 6 := by omega
    simp only [coverNode]
    by_cases hin : insideRange pfx s e = true
    · rw [if_pos hin]
      rw [insideRange, Bool.and_eq_true] at hin
      obtain ⟨hin1, hin2⟩ := hin
      rw [hourCovered]
      simp only [List.any_cons, List.any_nil, Bool.or_false]
      cases hq : hourIn pfx q with
      | false => rfl
      | true =>
        have h1 : lexLe s q = true :=
          lexLe_trans s (nodeLo pfx) q hin1 (lexLe_nodeLo_hourIn pfx q (by omega) hv hq)
        have h2 : lexLe q e = true :=
          lexLe_trans q (nodeHi pfx) e (lexLe_nodeHi_hourIn pfx q (by omega) hv hq) hin2
        rw [h1, h2]
        rfl
    · rw [if_neg hin]
      show hourCovered
          (((List.range' (childBounds pfx).1
                ((childBounds pfx).2 + 1 - (childBounds pfx).1)).filter
              fun c => overlaps (pfx ++ [c]) s e).flatMap
            fun c => coverNode d (pfx ++ [c]) s e) q =
        (hourIn pfx q && (lexLe s q && lexLe q e))
      rw [hourCovered_flat, List.any_filter]
      rw [Bool.eq_iff_iff]
      constructor
      · intro h
        rw [List.any_eq_true] at h
        obtain ⟨c, hcmem, hc⟩ := h
        simp only [Bool.and_eq_true] at hc
        obtain ⟨hcov, hcq⟩ := hc
        rw [List.mem_range'_1] at hcmem
        have hcb := childBounds_lt pfx hv hlt
        have hvchild : validPath (pfx ++ [c]) = true :=
          validPath_child pfx c hv (by omega) (by omega)
        rw [ih (pfx ++ [c]) (by simp; omega) hvchild s e q hcov] at hcq
        rw [Bool.and_eq_true] at hcq
        obtain ⟨hcq1, hcq2⟩ := hcq
        rw [hourIn_of_extend pfx c q hcq1, hcq2]
        rfl
      · intro h
        rw [Bool.and_eq_true] at h
        obtain ⟨hq, hrest⟩ := h
        have hq0 := hq
        rw [hourIn, Bool.and_eq_true, decide_eq_true_eq] at hq0
        obtain ⟨hval, htk⟩ := hq0
        have hval' := hval
        rw [validHour, Bool.and_eq_true, decide_eq_true_eq] at hval'
        obtain ⟨hvq, hq6⟩ := hval'
        have hplen : pfx.length < q.length := by omega
        have hx := validPath_bounds q hvq pfx.length hplen
        rw [htk] at hx
        rw [List.any_eq_true]
        refine ⟨q.getD pfx.length 0, ?_, ?_⟩
        · rw [List.mem_range'_1]
          exact ⟨hx.1, by omega⟩
        · show (overlaps (pfx ++ [q.getD pfx.length 0]) s e &&
              hourCovered (coverNode d (pfx ++ [q.getD pfx.length 0]) s e) q) = true
          have hchild_eq : pfx ++ [q.getD pfx.length 0] = q.take (pfx.length + 1) := by
            rw [take_succ_getD q pfx.length hplen, htk]
          have hvchild : validPath (pfx ++ [q.getD pfx.length 0]) = true := by
            rw [hchild_eq]
            exact validPath_take q hvq _
          have hqchild : hourIn (pfx ++ [q.getD pfx.length 0]) q = true := by
            rw [hourIn, hval, Bool.true_and, decide_eq_true_eq]
            simp only [List.length_append, List.length_cons, List.length_nil]
            rw [take_succ_getD q pfx.length hplen, htk]
          have hlenc : (pfx ++ [q.getD pfx.length 0]).length ≤ 6 := by
            simp only [List.length_append, List.length_cons, List.length_nil]
            omega
          rw [Bool.and_eq_true] at hrest
          obtain ⟨hsq, hqe⟩ := hrest
          have hov1 : lexLe (nodeLo (pfx ++ [q.getD pfx.length 0])) e = true :=
            lexLe_trans _ q e (lexLe_nodeLo_hourIn _ q hlenc hvchild hqchild) hqe
          have hov2 : lexLe s (nodeHi (pfx ++ [q.getD pfx.length 0])) = true :=
            lexLe_trans s q _ hsq (lexLe_nodeHi_hourIn _ q hlenc hvchild hqchild)
          have hovc : overlaps (pfx ++ [q.getD pfx.length 0]) s e = true := by
            rw [overlaps, hov1, hov2]
            rfl
          rw [hovc, Bool.true_and]
          rw [ih (pfx ++ [q.getD pfx.length 0]) (by simp; omega) hvchild s e q hovc]
          rw [hqchild, hsq, hqe]
          rfl

theorem timeRange_hours (s e q : List Nat) :
    hourCovered (TimeRange s e) q = (validHour q && (lexLe s q && lexLe q e)) := by
  rw [TimeRange, hourCovered_flat, List.any_filter, Bool.eq_iff_iff]
  constructor
  · intro h
    rw [List.any_eq_true] at h
    obtain ⟨y, hymem, hy⟩ := h
    simp only [Bool.and_eq_true] at hy
    obtain ⟨hyov, hycov⟩ := hy
    rw [List.mem_range'_1] at hymem
    simp only [MinYear, MaxYear] at hymem
    have hvy : validPath [y] = true := by
      have hys : ([] : List Nat) ++ [y] = [y] := rfl
      rw [← hys]
      refine validPath_child [] y rfl ?_ ?_
      · rw [childBounds_nil]
        omega
      · rw [childBounds_nil]
        omega
    rw [coverNode_hours 5 [y] (by simp) hvy s e q hyov] at hycov
    rw [Bool.and_eq_true] at hycov
    obtain ⟨hyq, hrest⟩ := hycov
    rw [hourIn, Bool.and_eq_true] at hyq
    rw [hyq.1, hrest]
    rfl
  · intro h
    rw [Bool.and_eq_true] at h
    obtain ⟨hvq, hrest⟩ := h
    have hrest' := hrest
    rw [Bool.and_eq_true] at hrest'
    obtain ⟨hsq, hqe⟩ := hrest'
    have hvq' := hvq
    rw [validHour, Bool.and_eq_true, decide_eq_true_eq] at hvq'
    obtain ⟨hvp, hq6⟩ := hvq'
    have h0 : 0 < q.length := by omega
    have hx := validPath_bounds q hvp 0 h0
    simp only [List.take_zero, childBounds_nil] at hx
    rw [List.any_eq_true]
    refine ⟨q.getD 0 0, ?_, ?_⟩
    · rw [List.mem_range'_1]
      simp only [MinYear, MaxYear]
      omega
    · show (overlaps [q.getD 0 0] s e &&
          hourCovered (coverNode 5 [q.getD 0 0] s e) q) = true
      have hchild_eq : [q.getD 0 0] = q.take 1 := by
        have h1 := take_succ_getD q 0 h0
        simpa using h1.symm
      have hvy : validPath [q.getD 0 0] = true := by
        rw [hchild_eq]
        exact validPath_take q hvp 1
      have hqy : hourIn [q.getD 0 0] q = true := by
        rw [hourIn, hvq, Bool.true_and, decide_eq_true_eq]
        exact hchild_eq.symm
      have hov1 : lexLe (nodeLo [q.getD 0 0]) e = true :=
        lexLe_trans _ q e (lexLe_nodeLo_hourIn _ q (by simp) hvy hqy) hqe
      have hov2 : lexLe s (nodeHi [q.getD 0 0]) = true :=
        lexLe_trans s q _ hsq (lexLe_nodeHi_hourIn _ q (by simp) hvy hqy)
      have hovy : overlaps [q.getD 0 0] s e = true := by
        rw [overlaps, hov1, hov2]
        rfl
      rw [hovy, Bool.true_and]
      rw [coverNode_hours 5 [q.getD 0 0] (by simp) hvy s e q hovy]
      rw [hqy, hsq, hqe]
      rfl

theorem validPath_year (y : Nat) (h1 : 2015 ≤ y) (h2 : y ≤ 2050) :
    validPath [y] = true := by
  have hys : ([] : List Nat) ++ [y] = [y] := rfl
  rw [← hys]
  refine validPath_child [] y rfl ?_ ?_
  · rw [childBounds_nil]
    omega
  · rw [childBounds_nil]
    omega

theorem coverNode_minimal :
    ∀ (d : Nat) (pfx s e r : List Nat), pfx.length + d = 6 → validPath pfx = true →
      r ∈ coverNode d pfx s e →
      pfx.length ≤ r.length ∧ r.take pfx.length = pfx ∧ validPath r = true ∧
        r.length ≤ 6 ∧
        (pfx.length < r.length → insideRange (r.dropLast) s e = false) := by
  intro d
  induction d with
  | zero =>
    intro pfx s e r hlen hv hr
    simp only [coverNode, List.mem_singleton] at hr
    subst hr
    exact ⟨le_rfl, List.take_length .., hv, by omega,
      fun hcon => absurd hcon (lt_irrefl _)⟩
  | succ d ih =>
    intro pfx s e r hlen hv hr
    have hlt : pfx.length < 6 := by omega
    simp only [coverNode] at hr
    by_cases hin : insideRange pfx s e = true
    · rw [if_pos hin] at hr
      simp only [List.mem_singleton] at hr
      subst hr
      exact ⟨le_rfl, List.take_length .., hv, by omega,
        fun hcon => absurd hcon (lt_irrefl _)⟩
    · rw [if_neg hin] at hr
      rw [show (let b := childBounds pfx;
          ((List.range' b.1 (b.2 + 1 - b.1)).filter
              fun c => overlaps (pfx ++ [c]) s e).flatMap
            fun c => coverNode d (pfx ++ [c]) s e) =
          ((List.range' (childBounds pfx).1
              ((childBounds pfx).2 + 1 - (childBounds pfx).1)).filter
            fun c => overlaps (pfx ++ [c]) s e).flatMap
            fun c => coverNode d (pfx ++ [c]) s e from rfl] at hr
      rw [List.mem_flatMap] at hr
      obtain ⟨c, hcmem, hrc⟩ := hr
      rw [List.mem_filter, List.mem_range'_1] at hcmem
      have hcb := childBounds_lt pfx hv hlt
      have hvchild : validPath (pfx ++ [c]) = true :=
        validPath_child pfx c hv (by omega) (by omega)
      have hmem := ih (pfx ++ [c]) s e r (by simp; omega) hvchild hrc
      obtain ⟨ih1, ih2, ih3, ih4, ih5⟩ := hmem
      simp only [List.length_append, List.length_cons, List.length_nil] at ih1 ih2 ih5
      refine ⟨by omega, ?_, ih3, ih4, ?_⟩
      · have ht : r.take pfx.length = (r.take (pfx.length + 1)).take pfx.length := by
          rw [List.take_take]
          congr 1
          omega
        rw [ht, ih2]
        exact List.take_left pfx [c]
      · intro hlt'
        by_cases hr1 : pfx.length + 1 < r.length
        · exact ih5 hr1
        · have hreq : r = pfx ++ [c] := by
            rw [← ih2]
            exact (List.take_of_length_le (by omega)).symm
          have hinf : insideRange pfx s e = false := by
            cases hb : insideRange pfx s e
            · rfl
            · exact absurd hb hin
          rw [hreq, List.dropLast_concat]
          exact hinf

theorem timeRange_minimal (s e r : List Nat) (h : r ∈ TimeRange s e) :
    1 ≤ r.length ∧ r.length ≤ 6 ∧ validPath r = true ∧
      (2 ≤ r.length → insideRange (r.dropLast) s e = false) := by
  rw [TimeRange, List.mem_flatMap] at h
  obtain ⟨y, hymem, hr⟩ := h
  rw [List.mem_filter, List.mem_range'_1] at hymem
  obtain ⟨hybounds, hyov⟩ := hymem
  simp only [MinYear, MaxYear] at hybounds
  have hvy : validPath [y] = true := validPath_year y (by omega) (by omega)
  have hmin := coverNode_minimal 5 [y] s e r (by simp) hvy hr
  obtain ⟨h1, h2, h3, h4, h5⟩ := hmin
  simp only [List.length_cons, List.length_nil] at h1 h5
  exact ⟨h1, h4, h3, fun hge => h5 (by omega)⟩

theorem filter_range_eq_single (p : Nat → Bool) (m : Nat) :
    ∀ (n a : Nat), a ≤ m → m < a + n →
      (∀ y, a ≤ y → y < a + n → (p y = true ↔ y = m)) →
      (List.range' a n).filter p = [m] := by
  intro n
  induction n with
  | zero =>
    intro a h1 h2 _
    omega
  | succ n ih =>
    intro a h1 h2 hp
    rw [List.range'_succ, List.filter_cons]
    by_cases ham : a = m
    · subst ham
      rw [if_pos ((hp a le_rfl (by omega)).mpr rfl)]
      have hrest : (List.range' (a + 1) n).filter p = [] := by
        rw [List.filter_eq_nil_iff]
        intro y hy hpy
        rw [List.mem_range'_1] at hy
        have hym := (hp y (by omega) (by omega)).mp hpy
        omega
      rw [hrest]
    · have hpa : ¬ p a = true := fun hpa => ham ((hp a le_rfl (by omega)).mp hpa)
      rw [if_neg hpa]
      exact ih (a + 1) (by omega) (by omega) fun y hy1 hy2 => hp y (by omega) (by omega)

theorem nodeLo_take_drop (p : List Nat) :
    nodeLo p = p ++ (nodeLo p).drop p.length := by
  have htk := extendLo_take (6 - p.length) p
  conv_lhs => rw [← List.take_append_drop p.length (nodeLo p)]
  rw [show (nodeLo p).take p.length = p from htk]

theorem nodeHi_take_drop (p : List Nat) :
    nodeHi p = p ++ (nodeHi p).drop p.length := by
  have htk := extendHi_take (6 - p.length) p
  conv_lhs => rw [← List.take_append_drop p.length (nodeHi p)]
  rw [show (nodeHi p).take p.length = p from htk]

theorem insideRange_point_false (p t : List Nat) (hv : validPath p = true)
    (hlt : p.length < 6) :
    insideRange p t t = false := by
  cases hb : insideRange p t t
  · rfl
  · exfalso
    rw [insideRange, Bool.and_eq_true] at hb
    obtain ⟨hb1, hb2⟩ := hb
    have htrans : lexLe (nodeHi p) (nodeLo p) = true := lexLe_trans _ t _ hb2 hb1
    have hcb := childBounds_lt p hv hlt
    rw [nodeHi_shape p hlt, nodeLo_shape p hlt, lexLe_append_cancel] at htrans
    rw [lexLe_cons_false _ _ _ _ (by omega)] at htrans
    exact Bool.false_ne_true htrans

theorem coverNode_point :
    ∀ (d ℓ : Nat) (t : List Nat), ℓ + d = 6 → validHour t = true →
      coverNode d (t.take ℓ) t t = [t] := by
  intro d
  induction d with
  | zero =>
    intro ℓ t hlen hv
    rw [validHour, Bool.and_eq_true, decide_eq_true_eq] at hv
    simp only [coverNode]
    rw [List.take_of_length_le (by omega)]
  | succ d ih =>
    intro ℓ t hlen hvt
    have hvt' := hvt
    rw [validHour, Bool.and_eq_true, decide_eq_true_eq] at hvt'
    obtain ⟨hvp, ht6⟩ := hvt'
    have hℓq : ℓ < t.length := by omega
    have hℓlen : (t.take ℓ).length = ℓ := by
      rw [List.length_take]
      omega
    have hlt : (t.take ℓ).length < 6 := by omega
    have hvpfx : validPath (t.take ℓ) = true := validPath_take t hvp ℓ
    have hinf := insideRange_point_false (t.take ℓ) t hvpfx hlt
    simp only [coverNode]
    rw [if_neg (by rw [hinf]; exact Bool.false_ne_true)]
    rw [show (let b := childBounds (t.take ℓ);
        ((List.range' b.1 (b.2 + 1 - b.1)).filter
            fun c => overlaps (t.take ℓ ++ [c]) t t).flatMap
          fun c => coverNode d (t.take ℓ ++ [c]) t t) =
        ((List.range' (childBounds (t.take ℓ)).1
            ((childBounds (t.take ℓ)).2 + 1 - (childBounds (t.take ℓ)).1)).filter
          fun c => overlaps (t.take ℓ ++ [c]) t t).flatMap
          fun c => coverNode d (t.take ℓ ++ [c]) t t from rfl]
    have hx := validPath_bounds t hvp ℓ hℓq
    have hsplit := split_at_getD t ℓ hℓq
    have htake1 : t.take ℓ ++ [t.getD ℓ 0] = t.take (ℓ + 1) :=
      (take_succ_getD t ℓ hℓq).symm
    have hfilter : (List.range' (childBounds (t.take ℓ)).1
        ((childBounds (t.take ℓ)).2 + 1 - (childBounds (t.take ℓ)).1)).filter
          (fun c => overlaps (t.take ℓ ++ [c]) t t) = [t.getD ℓ 0] := by
      apply filter_range_eq_single _ _ _ _ hx.1 (by omega)
      intro y hy1 hy2
      constructor
      · intro hpy
        by_contra hne
        rw [overlaps, Bool.and_eq_true] at hpy
        obtain ⟨hp1, hp2⟩ := hpy
        have hclen : (t.take ℓ ++ [y]).length = ℓ + 1 := by
          simp only [List.length_append, List.length_cons, List.length_nil, hℓlen]
        rcases Nat.lt_or_ge y (t.getD ℓ 0) with hlt2 | hge
        · have hXsplit : nodeHi (t.take ℓ ++ [y]) =
              t.take ℓ ++ y :: (nodeHi (t.take ℓ ++ [y])).drop (ℓ + 1) := by
            conv_lhs => rw [nodeHi_take_drop (t.take ℓ ++ [y])]
            rw [hclen, ← List.append_cons]
          have hfalse : lexLe t (nodeHi (t.take ℓ ++ [y])) = false := by
            rw [show lexLe t (nodeHi (t.take ℓ ++ [y])) =
                lexLe (t.take ℓ ++ t.getD ℓ 0 :: t.drop (ℓ + 1))
                  (t.take ℓ ++ y :: (nodeHi (t.take ℓ ++ [y])).drop (ℓ + 1)) from by
              rw [← hsplit, ← hXsplit]]
            rw [lexLe_append_cancel]
            exact lexLe_cons_false _ _ _ _ hlt2
          rw [hfalse] at hp2
          exact Bool.false_ne_true hp2
        · have hXsplit : nodeLo (t.take ℓ ++ [y]) =
              t.take ℓ ++ y :: (nodeLo (t.take ℓ ++ [y])).drop (ℓ + 1) := by
            conv_lhs => rw [nodeLo_take_drop (t.take ℓ ++ [y])]
            rw [hclen, ← List.append_cons]
          have hfalse : lexLe (nodeLo (t.take ℓ ++ [y])) t = false := by
            rw [show lexLe (nodeLo (t.take ℓ ++ [y])) t =
                lexLe (t.take ℓ ++ y :: (nodeLo (t.take ℓ ++ [y])).drop (ℓ + 1))
                  (t.take ℓ ++ t.getD ℓ 0 :: t.drop (ℓ + 1)) from by
              rw [← hsplit, ← hXsplit]]
            rw [lexLe_append_cancel]
            exact lexLe_cons_false _ _ _ _ (by omega)
          rw [hfalse] at hp1
          exact Bool.false_ne_true hp1
      · intro hym
        subst hym
        rw [htake1]
        have hqchild : hourIn (t.take (ℓ + 1)) t = true := by
          rw [hourIn, hvt, Bool.true_and, decide_eq_true_eq]
          congr 1
          rw [List.length_take]
          omega
        have hvchild : validPath (t.take (ℓ + 1)) = true := validPath_take t hvp (ℓ + 1)
        have hlenc : (t.take (ℓ + 1)).length ≤ 6 := by
          rw [List.length_take]
          omega
        rw [overlaps]
        rw [lexLe_nodeLo_hourIn _ t hlenc hvchild hqchild]
        rw [lexLe_nodeHi_hourIn _ t hlenc hvchild hqchild]
        rfl
    rw [hfilter]
    rw [List.flatMap_cons, List.flatMap_nil, List.append_nil]
    rw [htake1]
    exact ih (ℓ + 1) t (by omega) hvt

theorem timeRange_point (t : List Nat) (hvt : validHour t = true) :
    TimeRange t t = [t] := by
  have hvt' := hvt
  rw [validHour, Bool.and_eq_true, decide_eq_true_eq] at hvt'
  obtain ⟨hvp, ht6⟩ := hvt'
  have h0 : 0 < t.length := by omega
  have hx := validPath_bounds t hvp 0 h0
  simp only [List.take_zero, childBounds_nil] at hx
  have hsplit := split_at_getD t 0 h0
  rw [List.take_zero, List.nil_append, Nat.zero_add] at hsplit
  have htake1 : [t.getD 0 0] = t.take 1 := by
    simpa using (take_succ_getD t 0 h0).symm
  rw [TimeRange]
  have hfilter : (List.range' MinYear (MaxYear + 1 - MinYear)).filter
      (fun y => overlaps [y] t t) = [t.getD 0 0] := by
    apply filter_range_eq_single
    · simp only [MinYear]
      omega
    · simp only [MinYear, MaxYear]
      omega
    · intro y hy1 hy2
      constructor
      · intro hpy
        by_contra hne
        rw [overlaps, Bool.and_eq_true] at hpy
        obtain ⟨hp1, hp2⟩ := hpy
        rcases Nat.lt_or_ge y (t.getD 0 0) with hlt2 | hge
        · have hXsplit : nodeHi [y] = y :: (nodeHi [y]).drop 1 := nodeHi_take_drop [y]
          have hfalse : lexLe t (nodeHi [y]) = false := by
            rw [show lexLe t (nodeHi [y]) =
                lexLe (t.getD 0 0 :: t.drop 1) (y :: (nodeHi [y]).drop 1) from by
              rw [← hsplit, ← hXsplit]]
            exact lexLe_cons_false _ _ _ _ hlt2
          rw [hfalse] at hp2
          exact Bool.false_ne_true hp2
        · have hXsplit : nodeLo [y] = y :: (nodeLo [y]).drop 1 := nodeLo_take_drop [y]
          have hfalse : lexLe (nodeLo [y]) t = false := by
            rw [show lexLe (nodeLo [y]) t =
                lexLe (y :: (nodeLo [y]).drop 1) (t.getD 0 0 :: t.drop 1) from by
              rw [← hsplit, ← hXsplit]]
            exact lexLe_cons_false _ _ _ _ (by omega)
          rw [hfalse] at hp1
          exact Bool.false_ne_true hp1
      · intro hym
        subst hym
        rw [htake1]
        have hqchild : hourIn (t.take 1) t = true := by
          rw [hourIn, hvt, Bool.true_and, decide_eq_true_eq]
          congr 1
          rw [List.length_take]
          omega
        have hvchild : validPath (t.take 1) = true := validPath_take t hvp 1
        have hlenc : (t.take 1).length ≤ 6 := by
          rw [List.length_take]
          omega
        rw [overlaps]
        rw [lexLe_nodeLo_hourIn _ t hlenc hvchild hqchild]
        rw [lexLe_nodeHi_hourIn _ t hlenc hvchild hqchild]
        rfl
  rw [hfilter, List.flatMap_cons, List.flatMap_nil, List.append_nil, htake1]
  exact coverNode_point 5 1 t (by omega) hvt

/-- C4: Modelled from the spec (§4.2), since the `TimeRange` implementation is
absent from `src/`.  For hour-granularity timestamps `s ≤ e` given as valid
six-component quantity paths, `TimeRange s e` is non-empty; the hours covered
by its output paths are exactly the valid hours of the closed interval
`[s, e]`; the decomposition is minimal in that no output path of depth ≥ 2
could be replaced by its parent prefix without that parent covering hours
outside `[s, e]`; and the single-hour interval `[s, s]` yields exactly the one
six-component path `s`. -/
theorem c4_timeRange (s e : List Nat) (hs : validHour s = true)
    (_he : validHour e = true) (hse : lexLe s e = true) :
    TimeRange s e ≠ [] ∧
      (∀ q, hourCovered (TimeRange s e) q =
        (validHour q && (lexLe s q && lexLe q e))) ∧
      (∀ r, r ∈ TimeRange s e →
        1 ≤ r.length ∧ r.length ≤ 6 ∧ validPath r = true ∧
          (2 ≤ r.length → insideRange r.dropLast s e = false)) ∧
      TimeRange s s = [s] := by
  refine ⟨?_, fun q => timeRange_hours s e q,
    fun r hr => timeRange_minimal s e r hr, timeRange_point s hs⟩
  intro hempty
  have hcov := timeRange_hours s e s
  rw [hempty, hourCovered] at hcov
  simp only [List.any_nil] at hcov
  rw [hs, lexLe_refl, hse] at hcov
  simp at hcov

theorem c4_timeRange_witness :
    validHour [2017, 10, 2, 7, 3, 13] = true ∧
      lexLe [2017, 10, 2, 7, 3, 13] [2017, 10, 2, 7, 3, 13] = true ∧
      (TimeRange [2017, 10, 2, 7, 3, 13] [2017, 10, 2, 7, 3, 13] ≠ [] ∧
        (∀ q, hourCovered
            (TimeRange [2017, 10, 2, 7, 3, 13] [2017, 10, 2, 7, 3, 13]) q =
          (validHour q && (lexLe [2017, 10, 2, 7, 3, 13] q &&
            lexLe q [2017, 10, 2, 7, 3, 13]))) ∧
        (∀ r, r ∈ TimeRange [2017, 10, 2, 7, 3, 13] [2017, 10, 2, 7, 3, 13] →
          1 ≤ r.length ∧ r.length ≤ 6 ∧ validPath r = true ∧
            (2 ≤ r.length →
              insideRange r.dropLast [2017, 10, 2, 7, 3, 13]
                [2017, 10, 2, 7, 3, 13] = false)) ∧
        TimeRange [2017, 10, 2, 7, 3, 13] [2017, 10, 2, 7, 3, 13] =
          [[2017, 10, 2, 7, 3, 13]]) :=
  ⟨by decide, by decide,
    c4_timeRange [2017, 10, 2, 7, 3, 13] [2017, 10, 2, 7, 3, 13]
      (by decide) (by decide) (by decide)⟩

end Jedi
